import Mathlib

/-!
Character device `UCSP` (`dev_.c`): shallow embedding.

The driver keeps four file-level globals (`Major`, `Device_Open`, `msg`,
`msg_Ptr`) and exposes `device_open`, `device_release`, `device_read` and
`device_write`; `init_module` registers them.  The globals become the fields
of `State`; each operation becomes a function from the state (and its
arguments) to a return value and the next state.

* `char msg[BUF_LEN]` is a list of bytes whose length is fixed at `BUF_LEN`
  by the type.
* `char *msg_Ptr` is `none` for the null pointer a zero-initialised static
  holds, and `some i` for `msg + i`.
* Dereferencing the null pointer or a pointer past the end of `msg` has no
  defined result; `device_read` returns `none` there.
* `get_user` and `put_user` touch caller memory and may fault; the caller's
  memory is an argument of the embedded functions.
-/

namespace Chardev

/-- One `char`. -/
abbrev Byte := Fin 256

/-- `#define SUCCESS 0`. -/
def SUCCESS : Int := 0

/-- `#define BUF_LEN 80`. -/
def BUF_LEN : Nat := 80

/-- Linux `errno-base.h`: `EBUSY` is 16 (the header is not part of the sources). -/
def EBUSY : Int := 16

/-- Linux `errno-base.h`: `EFAULT` is 14 (the header is not part of the sources). -/
def EFAULT : Int := 14

/-- Arithmetic on a 32-bit `int`, wrapping as the kernel is compiled to do. -/
def wrap_int (x : Int) : Int := (x + 2 ^ 31) % 2 ^ 32 - 2 ^ 31

/-- The globals of `dev_.c`, plus the net count of `try_module_get` minus
`module_put` calls made on `THIS_MODULE`. -/
structure State where
  Major : Int
  Device_Open : Int
  msg : List Byte
  msg_size : msg.length = BUF_LEN
  msg_Ptr : Option Nat
  refcnt : Int
deriving DecidableEq

/-- The state at module load: statics are zero-initialised, `msg_Ptr` is null. -/
def initial : State :=
  { Major := 0, Device_Open := 0, msg := List.replicate BUF_LEN 0,
    msg_size := List.length_replicate _ _, msg_Ptr := none, refcnt := 0 }

/-- The assignment `msg[index] = c`. -/
def State.store (s : State) (index : Nat) (c : Byte) : State :=
  { s with msg := s.msg.set index c,
           msg_size := (List.length_set s.msg index c).trans s.msg_size }

/-- `device_open` (lines 74-84): returns the status and the next state. -/
def device_open (s : State) : Int × State :=
  if s.Device_Open ≠ 0 then (-EBUSY, s)
  else
    (SUCCESS, { s with Device_Open := wrap_int (s.Device_Open + 1),
                       msg_Ptr := some 0,
                       refcnt := s.refcnt + 1 })

/-- `device_release` (lines 88-97). -/
def device_release (s : State) : Int × State :=
  (0, { s with Device_Open := wrap_int (s.Device_Open - 1), refcnt := s.refcnt - 1 })

/-- What one `device_read` call hands back. -/
structure ReadResult where
  /-- the value `device_read` returns -/
  ret : Int
  /-- the bytes that reached the caller's buffer, in order -/
  delivered : List Byte
  /-- the globals after the call -/
  state : State
deriving DecidableEq

/-- The `while (length && *msg_Ptr)` loop of `device_read` (lines 110-115).
`ptr` is the offset of `msg_Ptr` in `msg`, `bytes_read` the counter, which is
also the offset of `buffer` from its initial value.  `put_user k` tells whether
the store to the caller's byte `k` succeeds; the loop ignores the status, as
the source does.  Yields the final `ptr`, the final `bytes_read` and the bytes
stored; `none` when `*msg_Ptr` is evaluated outside `msg`.  `bytes_read` is an
`int` in the source; it stays below `BUF_LEN + 1` because every iteration
reads inside `msg`, so it never wraps. -/
def read_loop (put_user : Nat → Bool) (msg : List Byte) :
    Nat → Nat → Nat → Option (Nat × Nat × List Byte)
  | 0, ptr, bytes_read => some (ptr, bytes_read, [])
  | length + 1, ptr, bytes_read =>
    match msg[ptr]? with
    | none => none
    | some c =>
      if c = 0 then some (ptr, bytes_read, [])
      else
        match read_loop put_user msg length (ptr + 1) (bytes_read + 1) with
        | none => none
        | some (p, n, out) => some (p, n, if put_user bytes_read then c :: out else out)

/-- `device_read` (lines 102-120) with a caller buffer that may fault. -/
def device_read_user (put_user : Nat → Bool) (s : State) (length : Nat) : Option ReadResult :=
  match s.msg_Ptr with
  | none => none
  | some ptr =>
    match s.msg[ptr]? with
    | none => none
    | some c =>
      if c = 0 then some { ret := 0, delivered := [], state := s }
      else
        match read_loop put_user s.msg length ptr 0 with
        | none => none
        | some (p, n, out) =>
          some { ret := (n : Int), delivered := out, state := { s with msg_Ptr := some p } }

/-- `device_read` when every `put_user` succeeds. -/
def device_read (s : State) (length : Nat) : Option ReadResult :=
  device_read_user (fun _ => true) s length

/-- What `get_user(msg[index], &buff[index])` finds at one caller address:
a readable byte, or a fault.  On a fault the macro returns non-zero; the
kernel documents that the destination is then set to zero, other
implementations leave it alone, so the byte left in the destination (if any)
is part of the outcome. -/
inductive UserByte where
  | ok (c : Byte)
  | fault (stored : Option Byte)
deriving DecidableEq

/-- The `for` loop of `device_write` (lines 135-140): `todo` iterations remain,
starting at `index`.  Yields `true` when a `get_user` faulted (the function
then returns `-EFAULT` at once). -/
def write_loop (buff : Nat → UserByte) : Nat → Nat → State → Bool × State
  | 0, _, s => (false, s)
  | todo + 1, index, s =>
    match buff index with
    | UserByte.ok c => write_loop buff todo (index + 1) (s.store index c)
    | UserByte.fault none => (true, s)
    | UserByte.fault (some c) => (true, s.store index c)

/-- `device_write` (lines 124-145); `buff i` is the caller's byte `buff[i]`. -/
def device_write (s : State) (buff : Nat → UserByte) (len : Nat) : Int × State :=
  let max_length := BUF_LEN - 1
  let bytes_to_copy := if len < max_length then len else max_length
  let r := write_loop buff bytes_to_copy 0 s
  if r.1 then (-EFAULT, r.2)
  else (bytes_to_copy, { r.2.store bytes_to_copy 0 with msg_Ptr := some 0 })

/-- A caller buffer holding exactly the bytes `b`, all readable; addresses
past the end fault. -/
def userBytes (b : List Byte) : Nat → UserByte :=
  fun i => match b[i]? with
    | some c => UserByte.ok c
    | none => UserByte.fault none

/-- Repeated `device_read` with the requested lengths `lens 0`, `lens 1`, ...
until a call returns 0; yields the concatenation of the delivered bytes and
the state after the call that returned 0.  `none` when `fuel` calls were not
enough or a call had no defined result. -/
def drain : Nat → (Nat → Nat) → State → Option (List Byte × State)
  | 0, _, _ => none
  | fuel + 1, lens, s =>
    match device_read s (lens 0) with
    | none => none
    | some r =>
      if r.ret = 0 then some ([], r.state)
      else
        match drain fuel (fun i => lens (i + 1)) r.state with
        | none => none
        | some (out, s') => some (r.delivered ++ out, s')

/-- The four file operations, with their arguments. -/
inductive Op where
  | open
  | release
  | read (put_user : Nat → Bool) (length : Nat)
  | write (buff : Nat → UserByte) (len : Nat)

/-- One call: the returned value and the next state. -/
def step (s : State) : Op → Option (Int × State)
  | Op.open => some (device_open s)
  | Op.release => some (device_release s)
  | Op.read put_user length => (device_read_user put_user s length).map fun r => (r.ret, r.state)
  | Op.write buff len => some (device_write s buff len)

/-- A sequence of calls: the returned values in order and the final state. -/
def run (s : State) : List Op → Option (List Int × State)
  | [] => some ([], s)
  | op :: ops =>
    match step s op with
    | none => none
    | some (r, s') =>
      match run s' ops with
      | none => none
      | some (rs, s'') => some (r :: rs, s'')

/-- The number of bytes of `msg` from offset `ptr` up to, and not including,
the next zero byte (or the end of the list when there is none). -/
def remaining (msg : List Byte) (ptr : Nat) : Nat :=
  ((msg.drop ptr).takeWhile (fun c => decide (c ≠ 0))).length

/-- The invariant of the running device: the last byte of `msg` is the
terminator and `msg_Ptr` points into `msg`. -/
def Inv (s : State) : Prop :=
  s.msg[BUF_LEN - 1]? = some 0 ∧ ∃ p, s.msg_Ptr = some p ∧ p ≤ BUF_LEN - 1

/-- The bytes of the text "hello". -/
def hello : List Byte := [104, 101, 108, 108, 111]

/-- The device after the first `device_open`. -/
def opened : State := (device_open initial).2

/-- The opened device after `"hello"` was written to it. -/
def helloState : State := (device_write opened (userBytes hello) 5).2

/-- A 100-byte input: the byte values 1, 2, ..., 100. -/
def hundred : List Byte := (List.range 100).map fun i => Fin.ofNat (i + 1)

/-- A caller buffer whose byte 0 is `x` (120) and whose other bytes cannot be
read; a faulting `get_user` leaves its destination alone. -/
def tornBuff : Nat → UserByte :=
  fun i => if i = 0 then UserByte.ok 120 else UserByte.fault none

/-- The same caller buffer when a faulting `get_user` zeroes its destination. -/
def tornBuffZeroing : Nat → UserByte :=
  fun i => if i = 0 then UserByte.ok 120 else UserByte.fault (some 0)

/-- `init_module` (lines 38-53); `r` is what `register_chrdev` returns.  The
`printk` calls have no effect on the state. -/
def init_module (s : State) (r : Int) : Int × State :=
  let s' := { s with Major := r }
  if s'.Major < 0 then (s'.Major, s') else (SUCCESS, s')

/-- The offsets in `msg` at which the loop of `device_read` evaluates
`*msg_Ptr`: once in the loop test when `length` is not 0, and once more as
the argument of `put_user` when the byte is not 0. -/
def read_loop_reads (msg : List Byte) : Nat → Nat → List Nat
  | 0, _ => []
  | length + 1, ptr =>
    match msg[ptr]? with
    | none => [ptr]
    | some c => if c = 0 then [ptr] else ptr :: ptr :: read_loop_reads msg length (ptr + 1)

/-- The offsets in `msg` that one `device_read` call reads: the test of line
108, then the loop.  `none` when `msg_Ptr` is null. -/
def device_read_reads (s : State) (length : Nat) : Option (List Nat) :=
  match s.msg_Ptr with
  | none => none
  | some ptr =>
    match s.msg[ptr]? with
    | none => some [ptr]
    | some c => if c = 0 then some [ptr] else some (ptr :: read_loop_reads s.msg length ptr)

/-- The indices `index` at which the loop of `device_write` hands `msg[index]`
to `get_user`, the faulting one included. -/
def write_loop_writes (buff : Nat → UserByte) : Nat → Nat → List Nat
  | 0, _ => []
  | todo + 1, index =>
    match buff index with
    | UserByte.ok _ => index :: write_loop_writes buff todo (index + 1)
    | UserByte.fault _ => [index]

/-- The indices of `msg` that one `device_write` call writes: those of the
loop, then that of the terminator when the loop completed. -/
def device_write_writes (s : State) (buff : Nat → UserByte) (len : Nat) : List Nat :=
  let max_length := BUF_LEN - 1
  let bytes_to_copy := if len < max_length then len else max_length
  write_loop_writes buff bytes_to_copy 0
    ++ (if (write_loop buff bytes_to_copy 0 s).1 then [] else [bytes_to_copy])

/-- A call that is not a write aborting with a copy fault: for a write, the
first `min len 79` caller bytes are all readable. -/
def Op.faultFree : Op → Bool
  | Op.write buff len =>
    (List.range (min len (BUF_LEN - 1))).all fun i =>
      match buff i with
      | UserByte.ok _ => true
      | UserByte.fault _ => false
  | _ => true

/-- A sequence of calls, run from `s`, in which `device_release` is called
only while a session is open (`Device_Open = 1`). -/
def sessionDiscipline : State → List Op → Bool
  | _, [] => true
  | s, op :: ops =>
    (match op with
      | Op.release => decide (s.Device_Open = 1)
      | _ => true)
    && (match step s op with
      | none => true
      | some (_, s') => sessionDiscipline s' ops)

/-- The invariant of a device no write has torn: the last byte of `msg` is the
terminator and the cursor is at or before the first terminator of `msg`. -/
def CursorInv (s : State) : Prop :=
  s.msg[BUF_LEN - 1]? = some 0 ∧ ∃ p, s.msg_Ptr = some p ∧ p ≤ remaining s.msg 0

/-- The invariant of the open guard: it is 0 or 1 and the reference count
equals it. -/
def SessionInv (s : State) : Prop :=
  (s.Device_Open = 0 ∨ s.Device_Open = 1) ∧ s.refcnt = s.Device_Open

/-- A caller buffer whose byte 0 is a readable zero byte and whose other bytes
cannot be read. -/
def zeroThenFault : Nat → UserByte :=
  fun i => if i = 0 then UserByte.ok 0 else UserByte.fault none

/-- A session with a write that aborts with a copy fault, a rejected second
open, and a re-open after the release. -/
def sampleTrace : List Op :=
  [Op.open, Op.write (userBytes hello) 5, Op.read (fun _ => true) 3, Op.write tornBuff 2,
   Op.open, Op.release, Op.open]

/-- The trace on which the cursor ends beyond the first terminator: open,
write "hello", read it to the end, then a write whose byte 0 is zero and
whose byte 1 cannot be read. -/
def tornTrace : List Op :=
  [Op.open, Op.write (userBytes hello) 5, Op.read (fun _ => true) 5, Op.write zeroThenFault 2]

/-! ## Lemmas on `remaining` -/

theorem remaining_of_none (msg : List Byte) (ptr : Nat) (h : msg[ptr]? = none) :
    remaining msg ptr = 0 := by
  have hle : msg.length ≤ ptr := by simpa using h
  simp [remaining, List.drop_of_length_le hle]

theorem drop_of_getElem? (msg : List Byte) (ptr : Nat) (c : Byte) (h : msg[ptr]? = some c) :
    msg.drop ptr = c :: msg.drop (ptr + 1) := by
  obtain ⟨hlt, hc⟩ := List.getElem?_eq_some.mp h
  rw [List.drop_eq_getElem_cons hlt, hc]

theorem remaining_of_zero (msg : List Byte) (ptr : Nat) (h : msg[ptr]? = some 0) :
    remaining msg ptr = 0 := by
  simp [remaining, drop_of_getElem? msg ptr 0 h]

theorem remaining_of_nonzero (msg : List Byte) (ptr : Nat) (c : Byte)
    (h : msg[ptr]? = some c) (hc : c ≠ 0) :
    remaining msg ptr = remaining msg (ptr + 1) + 1 := by
  simp [remaining, drop_of_getElem? msg ptr c h, hc]

theorem remaining_le (msg : List Byte) (ptr : Nat) :
    remaining msg ptr ≤ msg.length - ptr := by
  unfold remaining
  calc ((msg.drop ptr).takeWhile _).length ≤ (msg.drop ptr).length :=
        (List.takeWhile_sublist _).length_le
    _ = msg.length - ptr := List.length_drop _ _

theorem remaining_add (msg : List Byte) :
    ∀ (k ptr : Nat), k ≤ remaining msg ptr → remaining msg (ptr + k) + k = remaining msg ptr := by
  intro k
  induction k with
  | zero => intro ptr _; simp
  | succ k ih =>
    intro ptr hk
    cases hm : msg[ptr]? with
    | none => rw [remaining_of_none msg ptr hm] at hk; omega
    | some c =>
      by_cases hc : c = 0
      · subst hc
        rw [remaining_of_zero msg ptr hm] at hk; omega
      · have hr := remaining_of_nonzero msg ptr c hm hc
        have := ih (ptr + 1) (by omega)
        have e : ptr + (k + 1) = ptr + 1 + k := by omega
        rw [e]; omega

theorem take_remaining (msg : List Byte) (ptr : Nat) :
    (msg.drop ptr).take (remaining msg ptr)
      = (msg.drop ptr).takeWhile (fun c => decide (c ≠ 0)) := by
  unfold remaining
  generalize msg.drop ptr = l
  induction l with
  | nil => simp
  | cons a l ih =>
    by_cases ha : a = 0
    · simp [List.takeWhile_cons, ha]
    · simp only [List.takeWhile_cons, ha, ne_eq, not_false_eq_true, decide_True, if_true,
        List.length_cons, List.take_succ_cons]
      rw [ih]

/-! ## The read loop -/

theorem read_loop_spec (msg : List Byte) :
    ∀ (length ptr n : Nat),
      (length ≤ remaining msg ptr ∨ ptr + remaining msg ptr < msg.length) →
      read_loop (fun _ => true) msg length ptr n
        = some (ptr + min length (remaining msg ptr), n + min length (remaining msg ptr),
                (msg.drop ptr).take (min length (remaining msg ptr))) := by
  intro length
  induction length with
  | zero => intro ptr n _; simp [read_loop]
  | succ length ih =>
    intro ptr n h
    cases hm : msg[ptr]? with
    | none =>
      have h0 := remaining_of_none msg ptr hm
      have hle : msg.length ≤ ptr := by simpa using hm
      omega
    | some c =>
      by_cases hc : c = 0
      · subst hc
        simp [read_loop, hm, remaining_of_zero msg ptr hm]
      · have hr := remaining_of_nonzero msg ptr c hm hc
        have hmin : min (length + 1) (remaining msg ptr)
            = min length (remaining msg (ptr + 1)) + 1 := by
          rw [hr]; omega
        have h' : length ≤ remaining msg (ptr + 1)
            ∨ ptr + 1 + remaining msg (ptr + 1) < msg.length := by omega
        simp only [read_loop, hm, hc, if_false, ih (ptr + 1) (n + 1) h', hmin, if_true]
        rw [drop_of_getElem? msg ptr c hm, List.take_succ_cons]
        congr 2
        · omega
        · congr 1; omega

/-- The cursor and the count the loop ends with do not depend on `put_user`. -/
theorem read_loop_user (put_user : Nat → Bool) (msg : List Byte) :
    ∀ (length ptr n : Nat),
      Option.map (fun x => (x.1, x.2.1)) (read_loop put_user msg length ptr n)
        = Option.map (fun x => (x.1, x.2.1)) (read_loop (fun _ => true) msg length ptr n) := by
  intro length
  induction length with
  | zero => intro ptr n; simp [read_loop]
  | succ length ih =>
    intro ptr n
    cases hm : msg[ptr]? with
    | none => simp [read_loop, hm]
    | some c =>
      by_cases hc : c = 0
      · simp [read_loop, hm, hc]
      · have := ih (ptr + 1) (n + 1)
        simp only [read_loop, hm, hc, if_false]
        cases h1 : read_loop put_user msg length (ptr + 1) (n + 1) with
        | none =>
          rw [h1] at this
          cases h2 : read_loop (fun _ => true) msg length (ptr + 1) (n + 1) with
          | none => rfl
          | some y => rw [h2] at this; simp at this
        | some x =>
          rw [h1] at this
          cases h2 : read_loop (fun _ => true) msg length (ptr + 1) (n + 1) with
          | none => rw [h2] at this; simp at this
          | some y =>
            rw [h2] at this
            simpa using this

/-! ## The write loop -/

@[simp] theorem store_msg (s : State) (k : Nat) (c : Byte) :
    (s.store k c).msg = s.msg.set k c := rfl

@[simp] theorem store_msg_Ptr (s : State) (k : Nat) (c : Byte) :
    (s.store k c).msg_Ptr = s.msg_Ptr := rfl

@[simp] theorem store_Device_Open (s : State) (k : Nat) (c : Byte) :
    (s.store k c).Device_Open = s.Device_Open := rfl

@[simp] theorem store_Major (s : State) (k : Nat) (c : Byte) :
    (s.store k c).Major = s.Major := rfl

@[simp] theorem store_refcnt (s : State) (k : Nat) (c : Byte) :
    (s.store k c).refcnt = s.refcnt := rfl

/-- Two states with the same fields are equal. -/
theorem State.eq_of_fields (s t : State) (h1 : s.Major = t.Major)
    (h2 : s.Device_Open = t.Device_Open) (h3 : s.msg = t.msg)
    (h4 : s.msg_Ptr = t.msg_Ptr) (h5 : s.refcnt = t.refcnt) : s = t := by
  cases s; cases t; simp_all

/-- The loop touches only `msg`, and there only the offsets it walks over. -/
theorem write_loop_frame (buff : Nat → UserByte) :
    ∀ (todo index : Nat) (s : State),
      (write_loop buff todo index s).2.Major = s.Major
      ∧ (write_loop buff todo index s).2.Device_Open = s.Device_Open
      ∧ (write_loop buff todo index s).2.msg_Ptr = s.msg_Ptr
      ∧ (write_loop buff todo index s).2.refcnt = s.refcnt
      ∧ ∀ i, (i < index ∨ index + todo ≤ i) →
          (write_loop buff todo index s).2.msg[i]? = s.msg[i]? := by
  intro todo
  induction todo with
  | zero => intro index s; simp [write_loop]
  | succ todo ih =>
    intro index s
    cases hb : buff index with
    | ok c =>
      obtain ⟨h1, h2, h3, h4, h5⟩ := ih (index + 1) (s.store index c)
      simp only [write_loop, hb]
      refine ⟨by simpa using h1, by simpa using h2, by simpa using h3, by simpa using h4, ?_⟩
      intro i hi
      rw [h5 i (by omega), store_msg, List.getElem?_set_ne (by omega)]
    | fault st =>
      cases st with
      | none => simp [write_loop, hb]
      | some c =>
        simp only [write_loop, hb, store_Major, store_Device_Open, store_msg_Ptr, store_refcnt,
          store_msg, true_and]
        intro i hi
        rw [List.getElem?_set_ne (by omega)]

/-- When every byte the loop asks for is readable, the loop completes and the
walked offsets hold the caller's bytes. -/
theorem write_loop_ok (buff : Nat → UserByte) (f : Nat → Byte) :
    ∀ (todo index : Nat) (s : State),
      (∀ i, index ≤ i → i < index + todo → buff i = UserByte.ok (f i)) →
      index + todo ≤ BUF_LEN →
      (write_loop buff todo index s).1 = false
      ∧ ∀ i, index ≤ i → i < index + todo →
          (write_loop buff todo index s).2.msg[i]? = some (f i) := by
  intro todo
  induction todo with
  | zero =>
    intro index s _ _
    exact ⟨rfl, fun i a b => by omega⟩
  | succ todo ih =>
    intro index s hb hle
    have h0 := hb index (le_refl _) (by omega)
    obtain ⟨h1, h2⟩ := ih (index + 1) (s.store index (f index))
      (fun i hi hi' => hb i (by omega) (by omega)) (by omega)
    simp only [write_loop, h0]
    refine ⟨h1, ?_⟩
    intro i hi hi'
    by_cases he : i = index
    · subst he
      rw [(write_loop_frame buff todo (i + 1) (s.store i (f i))).2.2.2.2 i (by omega),
        store_msg, List.getElem?_set_self (by rw [s.msg_size]; omega)]
    · exact h2 i (by omega) (by omega)

/-- When the first unreadable byte is at offset `j`, the loop stops there:
the offsets before `j` hold the caller's bytes, those after `j` are as they
were. -/
theorem write_loop_fault (buff : Nat → UserByte) (f : Nat → Byte) (j : Nat)
    (st : Option Byte) (hj : buff j = UserByte.fault st) :
    ∀ (todo index : Nat) (s : State),
      index ≤ j → j < index + todo →
      (∀ i, index ≤ i → i < j → buff i = UserByte.ok (f i)) →
      index + todo ≤ BUF_LEN →
      (write_loop buff todo index s).1 = true
      ∧ (∀ i, index ≤ i → i < j → (write_loop buff todo index s).2.msg[i]? = some (f i))
      ∧ (∀ i, j < i → (write_loop buff todo index s).2.msg[i]? = s.msg[i]?) := by
  intro todo
  induction todo with
  | zero => intro index s h1 h2; omega
  | succ todo ih =>
    intro index s h1 h2 hb hle
    by_cases he : index = j
    · subst he
      cases st with
      | none =>
        rw [write_loop, hj]
        exact ⟨rfl, fun i a b => by omega, fun _ _ => rfl⟩
      | some c =>
        rw [write_loop, hj]
        refine ⟨rfl, fun i a b => by omega, fun i hi => ?_⟩
        show (s.store index c).msg[i]? = s.msg[i]?
        rw [store_msg, List.getElem?_set_ne (by omega)]
    · have h0 := hb index (le_refl _) (by omega)
      obtain ⟨a1, a2, a3⟩ := ih (index + 1) (s.store index (f index)) (by omega) (by omega)
        (fun i hi hi' => hb i (by omega) hi') (by omega)
      simp only [write_loop, h0]
      refine ⟨a1, ?_, ?_⟩
      · intro i hi hi'
        by_cases hx : i = index
        · subst hx
          rw [(write_loop_frame buff todo (i + 1) (s.store i (f i))).2.2.2.2 i (by omega),
            store_msg, List.getElem?_set_self (by rw [s.msg_size]; omega)]
        · exact a2 i (by omega) hi'
      · intro i hi
        rw [a3 i hi, store_msg, List.getElem?_set_ne (by omega)]

/-! ## `device_write` -/

theorem bytes_to_copy_eq (len : Nat) :
    (if len < BUF_LEN - 1 then len else BUF_LEN - 1) = min len (BUF_LEN - 1) := by
  split <;> omega

/-- A write whose source bytes are all readable. -/
theorem device_write_ok (s : State) (buff : Nat → UserByte) (len : Nat) (f : Nat → Byte)
    (h : ∀ i, i < min len (BUF_LEN - 1) → buff i = UserByte.ok (f i)) :
    (device_write s buff len).1 = ((min len (BUF_LEN - 1) : Nat) : Int)
    ∧ (device_write s buff len).2.msg_Ptr = some 0
    ∧ (device_write s buff len).2.Major = s.Major
    ∧ (device_write s buff len).2.Device_Open = s.Device_Open
    ∧ (device_write s buff len).2.refcnt = s.refcnt
    ∧ (∀ i, i < min len (BUF_LEN - 1) → (device_write s buff len).2.msg[i]? = some (f i))
    ∧ (device_write s buff len).2.msg[min len (BUF_LEN - 1)]? = some 0
    ∧ (∀ i, min len (BUF_LEN - 1) < i → (device_write s buff len).2.msg[i]? = s.msg[i]?) := by
  have hn : min len (BUF_LEN - 1) ≤ BUF_LEN - 1 := Nat.min_le_right _ _
  have hB : BUF_LEN = 80 := rfl
  obtain ⟨w1, w2⟩ := write_loop_ok buff f (min len (BUF_LEN - 1)) 0 s
    (fun i _ hi => h i (by omega)) (by omega)
  obtain ⟨f1, f2, f3, f4, f5⟩ := write_loop_frame buff (min len (BUF_LEN - 1)) 0 s
  have hsz := (write_loop buff (min len (BUF_LEN - 1)) 0 s).2.msg_size
  simp only [device_write, bytes_to_copy_eq, w1, Bool.false_eq_true, if_false, store_msg]
  refine ⟨trivial, trivial, f1, f2, f4, ?_, ?_, ?_⟩
  · intro i hi
    rw [List.getElem?_set_ne (by omega)]
    exact w2 i (Nat.zero_le _) (by omega)
  · rw [List.getElem?_set_self (by omega)]
  · intro i hi
    rw [List.getElem?_set_ne (by omega)]
    exact f5 i (Or.inr (by omega))

theorem userBytes_ok (b : List Byte) (i : Nat) (h : i < b.length) :
    userBytes b i = UserByte.ok (b.getD i 0) := by
  simp [userBytes, List.getElem?_eq_getElem h, List.getD_eq_getElem?_getD]

/-- The buffer after a write of readable bytes `b`: the first
`min b.length 79` bytes of `b`, the terminator, then the old bytes. -/
theorem device_write_msg (s : State) (b : List Byte) :
    (device_write s (userBytes b) b.length).2.msg
      = b.take (min b.length (BUF_LEN - 1))
          ++ 0 :: s.msg.drop (min b.length (BUF_LEN - 1) + 1) := by
  obtain ⟨_, _, _, _, _, h6, h7, h8⟩ := device_write_ok s (userBytes b) b.length
    (fun i => b.getD i 0) (fun i hi => userBytes_ok b i (by omega))
  have hlen : (b.take (min b.length (BUF_LEN - 1))).length = min b.length (BUF_LEN - 1) := by
    rw [List.length_take]; omega
  apply List.ext_getElem?
  intro i
  rcases Nat.lt_trichotomy i (min b.length (BUF_LEN - 1)) with hi | hi | hi
  · rw [h6 i hi, List.getElem?_append_left (by omega), List.getElem?_take_of_lt hi,
      List.getElem?_eq_getElem (by omega), List.getD_eq_getElem?_getD,
      List.getElem?_eq_getElem (by omega)]
    rfl
  · rw [hi, h7, List.getElem?_append_right (by omega), hlen]
    simp
  · rw [h8 i hi, List.getElem?_append_right (by omega), hlen]
    obtain ⟨d, hd⟩ : ∃ d, i = min b.length (BUF_LEN - 1) + 1 + d :=
      ⟨i - (min b.length (BUF_LEN - 1) + 1), by omega⟩
    have e : i - min b.length (BUF_LEN - 1) = d + 1 := by omega
    rw [e, List.getElem?_cons_succ, List.getElem?_drop, hd]

/-! ## `device_read` -/

/-- A read with the cursor on a zero byte. -/
theorem device_read_user_at_terminator (put_user : Nat → Bool) (s : State) (p length : Nat)
    (hp : s.msg_Ptr = some p) (h0 : s.msg[p]? = some 0) :
    device_read_user put_user s length = some { ret := 0, delivered := [], state := s } := by
  simp [device_read_user, hp, h0]

/-- A read with the cursor on a non-zero byte, every `put_user` succeeding. -/
theorem device_read_spec (s : State) (p length : Nat) (c : Byte)
    (hp : s.msg_Ptr = some p) (hc : s.msg[p]? = some c) (hne : c ≠ 0)
    (hterm : length ≤ remaining s.msg p ∨ p + remaining s.msg p < BUF_LEN) :
    device_read s length
      = some { ret := ((min length (remaining s.msg p) : Nat) : Int),
               delivered := (s.msg.drop p).take (min length (remaining s.msg p)),
               state := { s with msg_Ptr := some (p + min length (remaining s.msg p)) } } := by
  have h := read_loop_spec s.msg length p 0 (by rw [s.msg_size]; exact hterm)
  simp only [device_read, device_read_user, hp, hc, hne, if_false, h, Nat.zero_add]

/-- The value returned and the next state do not depend on `put_user`. -/
theorem device_read_user_spec (put_user : Nat → Bool) (s : State) (p length : Nat) (c : Byte)
    (hp : s.msg_Ptr = some p) (hc : s.msg[p]? = some c) (hne : c ≠ 0)
    (hterm : length ≤ remaining s.msg p ∨ p + remaining s.msg p < BUF_LEN) :
    ∃ out, device_read_user put_user s length
      = some { ret := ((min length (remaining s.msg p) : Nat) : Int),
               delivered := out,
               state := { s with msg_Ptr := some (p + min length (remaining s.msg p)) } } := by
  have h := read_loop_spec s.msg length p 0 (by rw [s.msg_size]; exact hterm)
  have hu := read_loop_user put_user s.msg length p 0
  rw [h] at hu
  cases hl : read_loop put_user s.msg length p 0 with
  | none => rw [hl] at hu; simp at hu
  | some x =>
    obtain ⟨a, b, out⟩ := x
    rw [hl] at hu
    simp only [Option.map_some', Option.some.injEq, Prod.mk.injEq, Nat.zero_add] at hu
    refine ⟨out, ?_⟩
    simp only [device_read_user, hp, hc, hne, if_false, hl, hu.1, hu.2]

/-- A cursor inside `msg` points at some byte. -/
theorem State.byte_at (s : State) (p : Nat) (h : p < BUF_LEN) : ∃ c, s.msg[p]? = some c := by
  cases hm : s.msg[p]? with
  | none =>
    have hle : s.msg.length ≤ p := by simpa using hm
    rw [s.msg_size] at hle
    omega
  | some c => exact ⟨c, rfl⟩

/-! ## Draining the device -/

theorem drain_spec :
    ∀ (fuel : Nat) (lens : Nat → Nat) (s : State) (p : Nat),
      s.msg_Ptr = some p → p + remaining s.msg p < BUF_LEN → (∀ i, 0 < lens i) →
      remaining s.msg p < fuel →
      drain fuel lens s
        = some ((s.msg.drop p).take (remaining s.msg p),
                { s with msg_Ptr := some (p + remaining s.msg p) }) := by
  intro fuel
  induction fuel with
  | zero => intro lens s p _ _ _ h; omega
  | succ fuel ih =>
    intro lens s p hp hterm hpos hfuel
    obtain ⟨c, hc⟩ := s.byte_at p (by omega)
    by_cases hne : c = 0
    · subst hne
      have hr := remaining_of_zero s.msg p hc
      have hd := device_read_user_at_terminator (fun _ => true) s p (lens 0) hp hc
      simp only [drain, device_read, hd, hr, if_true, List.take_zero, Nat.add_zero, ← hp]
    · have hr := remaining_of_nonzero s.msg p c hc hne
      have hd := device_read_spec s p (lens 0) c hp hc hne (Or.inr hterm)
      have hk : 0 < min (lens 0) (remaining s.msg p) := by
        have := hpos 0
        omega
      have hadd := remaining_add s.msg (min (lens 0) (remaining s.msg p)) p (Nat.min_le_right _ _)
      have hrec := ih (fun i => lens (i + 1))
        { s with msg_Ptr := some (p + min (lens 0) (remaining s.msg p)) }
        (p + min (lens 0) (remaining s.msg p)) rfl (by simp only; omega)
        (fun i => hpos (i + 1)) (by simp only; omega)
      have hret : ¬ (((min (lens 0) (remaining s.msg p) : Nat) : Int) = 0) := by
        intro h0
        have : min (lens 0) (remaining s.msg p) = 0 := by exact_mod_cast h0
        omega
      simp only [drain, hd, hret, if_false, hrec]
      have e1 : p + min (lens 0) (remaining s.msg p)
          + remaining s.msg (p + min (lens 0) (remaining s.msg p)) = p + remaining s.msg p := by
        omega
      have e2 : remaining s.msg p = min (lens 0) (remaining s.msg p)
          + remaining s.msg (p + min (lens 0) (remaining s.msg p)) := by omega
      rw [e1]
      congr 2
      conv_rhs => rw [e2, List.take_add, List.drop_drop]

/-- After a write of a zero-free `b` of at most 79 bytes the buffer holds `b`
up to its first terminator. -/
theorem remaining_after_write (s : State) (b : List Byte)
    (hlen : b.length ≤ BUF_LEN - 1) (hnz : ∀ c ∈ b, c ≠ 0) :
    (device_write s (userBytes b) b.length).2.msg = b ++ 0 :: s.msg.drop (b.length + 1)
    ∧ remaining (device_write s (userBytes b) b.length).2.msg 0 = b.length := by
  have hm := device_write_msg s b
  rw [Nat.min_eq_left hlen, List.take_length] at hm
  refine ⟨hm, ?_⟩
  unfold remaining
  rw [hm, List.drop_zero, List.takeWhile_append_of_pos (by simpa using hnz)]
  simp

/-! ## The invariant along calls -/

theorem remaining_le_of_zero (msg : List Byte) :
    ∀ (d p : Nat), msg[p + d]? = some 0 → remaining msg p ≤ d := by
  intro d
  induction d with
  | zero => intro p h; rw [remaining_of_zero msg p h]
  | succ d ih =>
    intro p h
    cases hm : msg[p]? with
    | none => rw [remaining_of_none msg p hm]; omega
    | some c =>
      by_cases hc : c = 0
      · subst hc
        rw [remaining_of_zero msg p hm]; omega
      · rw [remaining_of_nonzero msg p c hm hc]
        have e : p + (d + 1) = p + 1 + d := by omega
        rw [e] at h
        have := ih (p + 1) h
        omega

theorem remaining_lt_of_mem (msg : List Byte) (h : (0 : Byte) ∈ msg) :
    remaining msg 0 < msg.length := by
  obtain ⟨j, hj, hz⟩ := List.mem_iff_getElem.mp h
  have hj' : msg[0 + j]? = some 0 := by
    rw [Nat.zero_add, List.getElem?_eq_getElem hj, hz]
  have := remaining_le_of_zero msg j 0 hj'
  omega

/-- Under the invariant the next terminator is inside the buffer. -/
theorem Inv.terminator (s : State) (p : Nat) (h : s.msg[BUF_LEN - 1]? = some 0)
    (hp : p ≤ BUF_LEN - 1) : p + remaining s.msg p ≤ BUF_LEN - 1 := by
  have e : s.msg[p + (BUF_LEN - 1 - p)]? = some 0 := by
    rw [show p + (BUF_LEN - 1 - p) = BUF_LEN - 1 by omega]; exact h
  have := remaining_le_of_zero s.msg (BUF_LEN - 1 - p) p e
  omega

/-- Under the invariant every read is defined, keeps the invariant, moves the
cursor forward only, and changes nothing but the cursor. -/
theorem Inv.read (put_user : Nat → Bool) (s : State) (length : Nat) (h : Inv s) :
    ∃ r, device_read_user put_user s length = some r ∧ Inv r.state
      ∧ r.state.Device_Open = s.Device_Open ∧ r.state.msg = s.msg
      ∧ r.state.refcnt = s.refcnt ∧ r.state.Major = s.Major
      ∧ ∃ p q, s.msg_Ptr = some p ∧ r.state.msg_Ptr = some q ∧ p ≤ q := by
  obtain ⟨h79, p, hp, hle⟩ := h
  have hB : BUF_LEN = 80 := rfl
  obtain ⟨c, hc⟩ := s.byte_at p (by omega)
  by_cases hz : c = 0
  · subst hz
    exact ⟨_, device_read_user_at_terminator put_user s p length hp hc,
      ⟨h79, p, hp, hle⟩, rfl, rfl, rfl, rfl, p, p, hp, hp, le_refl _⟩
  · have ht := Inv.terminator s p h79 hle
    obtain ⟨out, ho⟩ := device_read_user_spec put_user s p length c hp hc hz
      (Or.inr (by omega))
    refine ⟨_, ho, ⟨h79, _, rfl, ?_⟩, rfl, rfl, rfl, rfl, p, _, hp, rfl, ?_⟩
    · have := Nat.min_le_right length (remaining s.msg p)
      omega
    · omega

/-- Every write, faulting or not, keeps the last buffer byte, the open guard
and the reference count, and leaves the cursor where it was or at offset 0. -/
theorem device_write_frame (s : State) (buff : Nat → UserByte) (len : Nat) :
    (device_write s buff len).2.Device_Open = s.Device_Open
    ∧ (device_write s buff len).2.refcnt = s.refcnt
    ∧ (device_write s buff len).2.Major = s.Major
    ∧ ((device_write s buff len).2.msg_Ptr = s.msg_Ptr
        ∨ (device_write s buff len).2.msg_Ptr = some 0)
    ∧ (s.msg[BUF_LEN - 1]? = some 0 → (device_write s buff len).2.msg[BUF_LEN - 1]? = some 0) := by
  have hn : min len (BUF_LEN - 1) ≤ BUF_LEN - 1 := Nat.min_le_right _ _
  have hB : BUF_LEN = 80 := rfl
  obtain ⟨f1, f2, f3, f4, f5⟩ := write_loop_frame buff (min len (BUF_LEN - 1)) 0 s
  have hsz := (write_loop buff (min len (BUF_LEN - 1)) 0 s).2.msg_size
  cases hr : (write_loop buff (min len (BUF_LEN - 1)) 0 s).1 with
  | true =>
    simp only [device_write, bytes_to_copy_eq, hr, if_true]
    exact ⟨f2, f4, f1, Or.inl f3, fun h => by rw [f5 _ (Or.inr (by omega))]; exact h⟩
  | false =>
    simp only [device_write, bytes_to_copy_eq, hr, Bool.false_eq_true, if_false, store_msg]
    refine ⟨f2, f4, f1, Or.inr trivial, fun h => ?_⟩
    by_cases he : min len (BUF_LEN - 1) = BUF_LEN - 1
    · rw [he, List.getElem?_set_self (by rw [State.msg_size]; omega)]
    · rw [List.getElem?_set_ne he, f5 _ (Or.inr (by omega))]; exact h

theorem Inv.write (s : State) (buff : Nat → UserByte) (len : Nat) (h : Inv s) :
    Inv (device_write s buff len).2 := by
  obtain ⟨h79, p, hp, hle⟩ := h
  obtain ⟨_, _, _, h4, h5⟩ := device_write_frame s buff len
  refine ⟨h5 h79, ?_⟩
  rcases h4 with h4 | h4
  · exact ⟨p, h4.trans hp, hle⟩
  · exact ⟨0, h4, Nat.zero_le _⟩

theorem device_open_of_set (s : State) (h : s.Device_Open ≠ 0) :
    device_open s = (-EBUSY, s) := by
  simp [device_open, h]

theorem device_open_of_clear (s : State) (h : s.Device_Open = 0) :
    device_open s
      = (0, { s with Device_Open := 1, msg_Ptr := some 0, refcnt := s.refcnt + 1 }) := by
  have hw : wrap_int 1 = 1 := by decide
  simp [device_open, h, hw, SUCCESS]

/-- Under the invariant every call is defined and keeps the invariant; reads
and writes leave the open guard alone, an open with the guard set is
rejected and changes nothing, a release takes one off the guard. -/
theorem Inv.step (s : State) (op : Op) (h : Inv s) :
    ∃ r s', step s op = some (r, s') ∧ Inv s'
      ∧ (op ≠ Op.open → op ≠ Op.release → s'.Device_Open = s.Device_Open)
      ∧ (op = Op.open → s.Device_Open ≠ 0 → r = -EBUSY ∧ s' = s)
      ∧ (op = Op.release → s'.Device_Open = wrap_int (s.Device_Open - 1)) := by
  cases op with
  | «open» =>
    refine ⟨(device_open s).1, (device_open s).2, rfl, ?_, fun h1 => absurd rfl h1,
      fun _ hg => ?_, fun h1 => Op.noConfusion h1⟩
    · obtain ⟨h79, p, hp, hle⟩ := h
      by_cases hg : s.Device_Open = 0
      · rw [device_open_of_clear s hg]
        exact ⟨h79, 0, rfl, Nat.zero_le _⟩
      · rw [device_open_of_set s hg]
        exact ⟨h79, p, hp, hle⟩
    · rw [device_open_of_set s hg]
      exact ⟨rfl, rfl⟩
  | release =>
    exact ⟨(device_release s).1, (device_release s).2, rfl, h, fun _ h2 => absurd rfl h2,
      fun h1 => Op.noConfusion h1, fun _ => rfl⟩
  | read put_user length =>
    obtain ⟨r, hr, hi, hg, _⟩ := Inv.read put_user s length h
    refine ⟨r.ret, r.state, ?_, hi, fun _ _ => hg, fun h1 => Op.noConfusion h1,
      fun h1 => Op.noConfusion h1⟩
    show Option.map (fun r => (r.ret, r.state)) (device_read_user put_user s length) = _
    rw [hr]
    rfl
  | write buff len =>
    exact ⟨(device_write s buff len).1, (device_write s buff len).2, rfl,
      Inv.write s buff len h, fun _ _ => (device_write_frame s buff len).1,
      fun h1 => Op.noConfusion h1, fun h1 => Op.noConfusion h1⟩

theorem Inv.opened : Inv opened := by
  refine ⟨by decide, 0, by decide, Nat.zero_le _⟩

theorem run_cons (s : State) (op : Op) (ops : List Op) (r : Int) (t : State)
    (h : step s op = some (r, t)) :
    run s (op :: ops) = (run t ops).map fun x => (r :: x.1, x.2) := by
  simp only [run, h]
  cases run t ops with
  | none => rfl
  | some y => rfl

theorem run_append (ops₁ ops₂ : List Op) :
    ∀ (s : State) (rs : List Int) (s' : State), run s ops₁ = some (rs, s') →
      run s (ops₁ ++ ops₂) = (run s' ops₂).map fun x => (rs ++ x.1, x.2) := by
  induction ops₁ with
  | nil =>
    intro s rs s' h
    simp only [run, Option.some.injEq, Prod.mk.injEq] at h
    obtain ⟨h1, h2⟩ := h
    subst h1 h2
    rw [List.nil_append]
    cases run s ops₂ with
    | none => rfl
    | some y => rfl
  | cons op ops ih =>
    intro s rs s' h
    cases hs : step s op with
    | none => simp [run, hs] at h
    | some x =>
      obtain ⟨r, t⟩ := x
      rw [run_cons s op ops r t hs] at h
      cases hr : run t ops with
      | none => simp [hr] at h
      | some y =>
        obtain ⟨rs₁, t'⟩ := y
        simp only [hr, Option.map_some', Option.some.injEq, Prod.mk.injEq] at h
        obtain ⟨h1, h2⟩ := h
        subst h1 h2
        rw [List.cons_append, run_cons s op (ops ++ ops₂) r t hs, ih t rs₁ t' hr]
        cases run t' ops₂ with
        | none => rfl
        | some y => rfl

/-- While no release occurs, calls on a device whose guard is set are all
defined, keep the guard, and every open among them is rejected. -/
theorem run_guarded (ops : List Op) :
    ∀ (s : State), Inv s → s.Device_Open ≠ 0 → (∀ op ∈ ops, op ≠ Op.release) →
      ∃ rs s', run s ops = some (rs, s') ∧ rs.length = ops.length ∧ Inv s'
        ∧ s'.Device_Open = s.Device_Open
        ∧ ∀ x ∈ List.zip ops rs, x.1 = Op.open → x.2 = -EBUSY := by
  induction ops with
  | nil => intro s h _ _; exact ⟨[], s, rfl, rfl, h, rfl, by simp⟩
  | cons op ops ih =>
    intro s h hg hops
    obtain ⟨r, t, hs, hi, h1, h2, _⟩ := Inv.step s op h
    have hrel : op ≠ Op.release := hops op (List.mem_cons_self _ _)
    have hgt : t.Device_Open = s.Device_Open := by
      by_cases ho : op = Op.open
      · rw [(h2 ho hg).2]
      · exact h1 ho hrel
    obtain ⟨rs, t', hr, hl, hi', hg', hz⟩ := ih t hi (by rw [hgt]; exact hg)
      (fun o ho => hops o (List.mem_cons_of_mem _ ho))
    refine ⟨r :: rs, t', by rw [run_cons s op ops r t hs, hr]; rfl, by simp [hl], hi',
      hg'.trans hgt, ?_⟩
    intro x hx hxo
    rw [List.zip_cons_cons, List.mem_cons] at hx
    rcases hx with hx | hx
    · subst hx
      exact (h2 hxo hg).1
    · exact hz x hx hxo

/-- Reads and writes alone are all defined and keep the guard. -/
theorem run_reads_writes (ops : List Op) :
    ∀ (s : State), Inv s → (∀ op ∈ ops, op ≠ Op.release ∧ op ≠ Op.open) →
      ∃ rs s', run s ops = some (rs, s') ∧ Inv s' ∧ s'.Device_Open = s.Device_Open := by
  induction ops with
  | nil => intro s h _; exact ⟨[], s, rfl, h, rfl⟩
  | cons op ops ih =>
    intro s h hops
    obtain ⟨r, t, hs, hi, h1, _, _⟩ := Inv.step s op h
    have ho := hops op (List.mem_cons_self _ _)
    obtain ⟨rs, t', hr, hi', hg'⟩ := ih t hi (fun o ho => hops o (List.mem_cons_of_mem _ ho))
    exact ⟨r :: rs, t', by rw [run_cons s op ops r t hs, hr]; rfl, hi',
      hg'.trans (h1 ho.2 ho.1)⟩

/-! ## Reads see only the bytes from the cursor on -/

theorem read_loop_congr (put_user : Nat → Bool) (m₁ m₂ : List Byte) :
    ∀ (length ptr n : Nat), (∀ i, ptr ≤ i → m₁[i]? = m₂[i]?) →
      read_loop put_user m₁ length ptr n = read_loop put_user m₂ length ptr n := by
  intro length
  induction length with
  | zero => intro ptr n _; rfl
  | succ length ih =>
    intro ptr n h
    have h0 := h ptr (le_refl _)
    have hrec := ih (ptr + 1) (n + 1) (fun i hi => h i (by omega))
    simp only [read_loop, h0, hrec]

theorem read_loop_ge (put_user : Nat → Bool) (msg : List Byte) :
    ∀ (length ptr n : Nat) (x : Nat × Nat × List Byte),
      read_loop put_user msg length ptr n = some x → ptr ≤ x.1 := by
  intro length
  induction length with
  | zero =>
    intro ptr n x h
    simp only [read_loop, Option.some.injEq] at h
    rw [← h]
  | succ length ih =>
    intro ptr n x h
    cases hm : msg[ptr]? with
    | none => simp [read_loop, hm] at h
    | some c =>
      by_cases hc : c = 0
      · simp only [read_loop, hm, hc, if_true, Option.some.injEq] at h
        rw [← h]
      · cases hl : read_loop put_user msg length (ptr + 1) (n + 1) with
        | none => simp [read_loop, hm, hc, hl] at h
        | some y =>
          have := ih (ptr + 1) (n + 1) y hl
          simp only [read_loop, hm, hc, if_false, hl, Option.some.injEq] at h
          rw [← h]
          show ptr ≤ y.1
          omega

/-- Two states with the same cursor whose buffers agree from the cursor on
answer a read alike, and are again such a pair afterwards. -/
theorem device_read_congr (s t : State) (p length : Nat)
    (hs : s.msg_Ptr = some p) (ht : t.msg_Ptr = some p)
    (hm : ∀ i, p ≤ i → s.msg[i]? = t.msg[i]?) :
    (device_read s length = none ∧ device_read t length = none)
    ∨ ∃ a b, device_read s length = some a ∧ device_read t length = some b
        ∧ a.ret = b.ret ∧ a.delivered = b.delivered
        ∧ ∃ q, p ≤ q ∧ a.state.msg_Ptr = some q ∧ b.state.msg_Ptr = some q
            ∧ a.state.msg = s.msg ∧ b.state.msg = t.msg := by
  have h0 := hm p (le_refl _)
  have hl := read_loop_congr (fun _ => true) s.msg t.msg length p 0 hm
  cases hc : t.msg[p]? with
  | none =>
    left
    simp [device_read, device_read_user, hs, ht, h0, hc]
  | some c =>
    by_cases hz : c = 0
    · right
      subst hz
      rw [hc] at h0
      exact ⟨_, _, device_read_user_at_terminator _ s p length hs h0,
        device_read_user_at_terminator _ t p length ht hc, rfl, rfl, p, le_refl _, hs, ht,
        rfl, rfl⟩
    · cases hr : read_loop (fun _ => true) t.msg length p 0 with
      | none =>
        left
        simp [device_read, device_read_user, hs, ht, h0, hc, hz, hl, hr]
      | some x =>
        right
        obtain ⟨q, n, out⟩ := x
        have hq := read_loop_ge _ _ _ _ _ _ hr
        refine ⟨{ ret := (n : Int), delivered := out, state := { s with msg_Ptr := some q } },
          { ret := (n : Int), delivered := out, state := { t with msg_Ptr := some q } },
          ?_, ?_, rfl, rfl, q, hq, rfl, rfl, rfl, rfl⟩
        · simp [device_read, device_read_user, hs, h0, hc, hz, hl, hr]
        · simp [device_read, device_read_user, ht, hc, hz, hr]

theorem drain_congr :
    ∀ (fuel : Nat) (lens : Nat → Nat) (s t : State) (p : Nat),
      s.msg_Ptr = some p → t.msg_Ptr = some p → (∀ i, p ≤ i → s.msg[i]? = t.msg[i]?) →
      Option.map Prod.fst (drain fuel lens s) = Option.map Prod.fst (drain fuel lens t) := by
  intro fuel
  induction fuel with
  | zero => intro lens s t p _ _ _; rfl
  | succ fuel ih =>
    intro lens s t p hs ht hm
    rcases device_read_congr s t p (lens 0) hs ht hm with ⟨h1, h2⟩ | ⟨a, b, h1, h2, hr, hd, q, hq, ha, hb, hma, hmb⟩
    · simp only [drain, h1, h2]
    · have hrec := ih (fun i => lens (i + 1)) a.state b.state q ha hb
        (fun i hi => by rw [hma, hmb]; exact hm i (by omega))
      simp only [drain, h1, h2]
      by_cases hz : b.ret = 0
      · simp only [hr, hz, if_true, Option.map_some']
      · simp only [hr, hz, if_false, hd]
        cases hx : drain fuel (fun i => lens (i + 1)) a.state with
        | none =>
          rw [hx] at hrec
          cases hy : drain fuel (fun i => lens (i + 1)) b.state with
          | none => rfl
          | some y => rw [hy] at hrec; simp at hrec
        | some x =>
          rw [hx] at hrec
          cases hy : drain fuel (fun i => lens (i + 1)) b.state with
          | none => rw [hy] at hrec; simp at hrec
          | some y =>
            rw [hy] at hrec
            simp only [Option.map_some', Option.some.injEq] at hrec
            simp only [Option.map_some', hrec]

/-- Among the caller bytes up to a faulting one there is a first faulting one. -/
theorem first_fault (buff : Nat → UserByte) :
    ∀ (i₀ : Nat), (∃ st, buff i₀ = UserByte.fault st) →
      ∃ j, j ≤ i₀ ∧ (∃ st, buff j = UserByte.fault st) ∧ ∀ i, i < j → ∃ c, buff i = UserByte.ok c := by
  intro i₀
  induction i₀ using Nat.strong_induction_on with
  | _ i₀ ih =>
    intro hf
    by_cases hall : ∀ i, i < i₀ → ∃ c, buff i = UserByte.ok c
    · exact ⟨i₀, le_refl _, hf, hall⟩
    · push_neg at hall
      obtain ⟨i, hi, hn⟩ := hall
      have hfi : ∃ st, buff i = UserByte.fault st := by
        cases hb : buff i with
        | ok c => exact absurd hb (hn c)
        | fault st => exact ⟨st, rfl⟩
      obtain ⟨j, hj, h1, h2⟩ := ih i hi hfi
      exact ⟨j, by omega, h1, h2⟩

/-! ## The claims -/

/-- C1, as stated, fails: the three bytes `h`, NUL, `i` are written with
success (the call returns 3), and the drain that follows returns the single
byte `h`, not the three bytes written. -/
theorem write_read_round_trip_counterexample :
    (device_write opened (userBytes [104, 0, 105]) 3).1 = 3
    ∧ Option.map Prod.fst
        (drain 4 (fun _ => 100) (device_write opened (userBytes [104, 0, 105]) 3).2)
        = some [104]
    ∧ Option.map Prod.fst
        (drain 4 (fun _ => 100) (device_write opened (userBytes [104, 0, 105]) 3).2)
        ≠ some [104, 0, 105] := by
  decide

/-- C1 (amended): for every byte sequence `b` of at most 79 bytes none of
which is zero, from any state, `device_write` returns `length b`; then for
every sequence of positive requested lengths, repeated `device_read` calls
until one returns 0 deliver exactly `b` (any fuel above `length b` is enough
calls), and every read after that returns 0 again.  The scenario of the spec
is the last conjunct: writing "hello" returns 5, a read of length 100 returns
the 5 bytes, the next read returns 0. -/
theorem write_read_round_trip (s : State) (b : List Byte) (lens : Nat → Nat) (fuel : Nat)
    (hlen : b.length ≤ BUF_LEN - 1) (hnz : ∀ c ∈ b, c ≠ 0) (hpos : ∀ i, 0 < lens i)
    (hfuel : b.length < fuel) :
    (device_write s (userBytes b) b.length).1 = (b.length : Int)
    ∧ (∃ s', drain fuel lens (device_write s (userBytes b) b.length).2 = some (b, s')
        ∧ ∀ length, device_read s' length = some { ret := 0, delivered := [], state := s' })
    ∧ ((device_write opened (userBytes hello) 5).1 = 5
        ∧ (device_read helloState 100).map (fun r => (r.ret, r.delivered)) = some (5, hello)
        ∧ ((device_read helloState 100).bind fun r => device_read r.state 100).map
            (fun r => (r.ret, r.delivered)) = some (0, [])) := by
  have hB : BUF_LEN = 80 := rfl
  obtain ⟨w1, w2, _, _, _, _, w7, _⟩ := device_write_ok s (userBytes b) b.length
    (fun i => b.getD i 0) (fun i hi => userBytes_ok b i (by omega))
  obtain ⟨hm, hr⟩ := remaining_after_write s b hlen hnz
  rw [Nat.min_eq_left hlen] at w1 w7
  refine ⟨w1, ?_, by decide⟩
  have hd := drain_spec fuel lens (device_write s (userBytes b) b.length).2 0 w2
    (by rw [hr]; omega) hpos (by rw [hr]; exact hfuel)
  rw [hr, Nat.zero_add, List.drop_zero] at hd
  have ht : List.take b.length (device_write s (userBytes b) b.length).2.msg = b := by
    rw [hm, List.take_left]
  rw [ht] at hd
  refine ⟨_, hd, fun length => ?_⟩
  exact device_read_user_at_terminator _ _ b.length length rfl w7

/-- C1 (amended), at "hello" written to the opened device and read back in
reads of 2 bytes. -/
theorem write_read_round_trip_witness :
    hello.length ≤ BUF_LEN - 1 ∧ (∀ c ∈ hello, c ≠ 0)
    ∧ (device_write opened (userBytes hello) hello.length).1 = (hello.length : Int)
    ∧ ∃ s', drain 6 (fun _ => 2) (device_write opened (userBytes hello) hello.length).2
        = some (hello, s') :=
  have h := write_read_round_trip opened hello (fun _ => 2) 6 (by simp [hello, BUF_LEN])
    (by simp [hello]) (fun _ => Nat.succ_pos 1) (by simp [hello])
  ⟨by simp [hello, BUF_LEN], by simp [hello], h.1, h.2.1.imp fun _ h' => h'.1⟩

/-- C2: a `device_write` of readable bytes `b` (so `len = length b`), from any
state, returns `n = min len 79`, leaves the first `n` bytes of `b` in buffer
bytes `0..n-1`, the terminator 0 in buffer byte `n`, and the cursor at offset
0; the bytes after the terminator, the open guard and the reference count are
as before.  When `b` has 79 bytes or more (100, say) the call returns 79 and
the whole buffer is the first 79 bytes of `b` followed by the terminator. -/
theorem device_write_post (s : State) (b : List Byte) :
    (device_write s (userBytes b) b.length).1 = ((min b.length (BUF_LEN - 1) : Nat) : Int)
    ∧ (device_write s (userBytes b) b.length).2.msg.take (min b.length (BUF_LEN - 1))
        = b.take (min b.length (BUF_LEN - 1))
    ∧ (device_write s (userBytes b) b.length).2.msg[min b.length (BUF_LEN - 1)]? = some 0
    ∧ (device_write s (userBytes b) b.length).2.msg_Ptr = some 0
    ∧ (device_write s (userBytes b) b.length).2.msg.drop (min b.length (BUF_LEN - 1) + 1)
        = s.msg.drop (min b.length (BUF_LEN - 1) + 1)
    ∧ (device_write s (userBytes b) b.length).2.Device_Open = s.Device_Open
    ∧ (device_write s (userBytes b) b.length).2.refcnt = s.refcnt
    ∧ (BUF_LEN - 1 ≤ b.length →
        (device_write s (userBytes b) b.length).1 = 79
        ∧ (device_write s (userBytes b) b.length).2.msg = b.take 79 ++ [0]) := by
  have hB : BUF_LEN = 80 := rfl
  obtain ⟨w1, w2, _, w4, w5, _, w7, _⟩ := device_write_ok s (userBytes b) b.length
    (fun i => b.getD i 0) (fun i hi => userBytes_ok b i (by omega))
  have hm := device_write_msg s b
  have hlen : (b.take (min b.length (BUF_LEN - 1))).length = min b.length (BUF_LEN - 1) := by
    rw [List.length_take]; omega
  refine ⟨w1, ?_, w7, w2, ?_, w4, w5, ?_⟩
  · rw [hm, List.take_left' hlen]
  · rw [hm, List.drop_append_eq_append_drop, hlen,
      List.drop_eq_nil_of_le (by rw [hlen]; omega)]
    simp
  · intro hge
    have hn : min b.length (BUF_LEN - 1) = 79 := by omega
    rw [hn] at w1 hm
    refine ⟨by simpa using w1, ?_⟩
    rw [hm, List.drop_eq_nil_of_le (by rw [s.msg_size]; omega)]

/-- C2 at the 100-byte input `1, 2, ..., 100` written to the opened device. -/
theorem device_write_post_witness :
    BUF_LEN - 1 ≤ hundred.length
    ∧ (device_write opened (userBytes hundred) hundred.length).1 = 79
    ∧ (device_write opened (userBytes hundred) hundred.length).2.msg
        = hundred.take 79 ++ [0] :=
  ⟨by simp [hundred, BUF_LEN],
    (device_write_post opened hundred).2.2.2.2.2.2.2 (by simp [hundred, BUF_LEN])⟩

/-- C3: in a state whose cursor `p` is on a non-zero buffer byte, let `r` be
the number of buffer bytes from `p` up to the next terminator.  For a
requested length `length`, `device_read` returns `k = min length r`, delivers
exactly the `k` buffer bytes starting at `p`, none of them the terminator,
moves the cursor to `p + k`, and changes nothing else (the buffer included).
The next terminator is required to exist inside the buffer only when
`length` exceeds `r`; a shorter read never looks that far. -/
theorem device_read_post (s : State) (p length : Nat) (c : Byte)
    (hp : s.msg_Ptr = some p) (hc : s.msg[p]? = some c) (hne : c ≠ 0)
    (hterm : length ≤ remaining s.msg p ∨ p + remaining s.msg p < BUF_LEN) :
    device_read s length
      = some { ret := ((min length (remaining s.msg p) : Nat) : Int),
               delivered := (s.msg.drop p).take (min length (remaining s.msg p)),
               state := { s with msg_Ptr := some (p + min length (remaining s.msg p)) } }
    ∧ ((s.msg.drop p).take (min length (remaining s.msg p))).length
        = min length (remaining s.msg p)
    ∧ ∀ x ∈ (s.msg.drop p).take (min length (remaining s.msg p)), x ≠ 0 := by
  refine ⟨device_read_spec s p length c hp hc hne hterm, ?_, ?_⟩
  · have := remaining_le s.msg p
    rw [List.length_take, List.length_drop]
    omega
  · intro x hx
    rw [← List.take_take, take_remaining] at hx
    have := List.mem_takeWhile_imp (List.mem_of_mem_take hx)
    simpa using this

/-- C3 at the device holding "hello" with the cursor at offset 0, for a
request of 3 bytes and for a request of 100 bytes. -/
theorem device_read_post_witness :
    helloState.msg_Ptr = some 0 ∧ helloState.msg[0]? = some 104
    ∧ remaining helloState.msg 0 = 5
    ∧ device_read helloState 3
        = some { ret := ((min 3 (remaining helloState.msg 0) : Nat) : Int),
                 delivered := (helloState.msg.drop 0).take (min 3 (remaining helloState.msg 0)),
                 state := { helloState with
                   msg_Ptr := some (0 + min 3 (remaining helloState.msg 0)) } }
    ∧ device_read helloState 100
        = some { ret := ((min 100 (remaining helloState.msg 0) : Nat) : Int),
                 delivered := (helloState.msg.drop 0).take (min 100 (remaining helloState.msg 0)),
                 state := { helloState with
                   msg_Ptr := some (0 + min 100 (remaining helloState.msg 0)) } } :=
  ⟨by decide, by decide, by decide,
    (device_read_post helloState 0 3 104 (by decide) (by decide) (by decide)
      (Or.inl (by decide))).1,
    (device_read_post helloState 0 100 104 (by decide) (by decide) (by decide)
      (Or.inr (by decide))).1⟩

/-- C4: whenever the open guard is set (`Device_Open` is non-zero),
`device_open` returns `-EBUSY` and the state after the call, with its guard,
buffer, cursor and reference count, is the state before the call. -/
theorem device_open_busy (s : State) (h : s.Device_Open ≠ 0) :
    device_open s = (-EBUSY, s)
    ∧ (device_open s).2.Device_Open = s.Device_Open
    ∧ (device_open s).2.msg = s.msg
    ∧ (device_open s).2.msg_Ptr = s.msg_Ptr
    ∧ (device_open s).2.refcnt = s.refcnt := by
  have e : device_open s = (-EBUSY, s) := by simp [device_open, h]
  rw [e]
  exact ⟨rfl, rfl, rfl, rfl, rfl⟩

/-- C4 at the opened device holding "hello". -/
theorem device_open_busy_witness :
    helloState.Device_Open ≠ 0 ∧ device_open helloState = (-16, helloState) :=
  ⟨by decide, (device_open_busy helloState (by decide)).1⟩

/-- C5: whenever the open guard is clear (`Device_Open = 0`), whatever the
cursor, `device_open` returns 0, sets the guard to 1, puts the cursor at
offset 0 and leaves the buffer as it was; the reference count goes up by
one and nothing else changes. -/
theorem device_open_closed (s : State) (h : s.Device_Open = 0) :
    device_open s
      = (0, { s with Device_Open := 1, msg_Ptr := some 0, refcnt := s.refcnt + 1 })
    ∧ (device_open s).1 = SUCCESS
    ∧ (device_open s).2.Device_Open = 1
    ∧ (device_open s).2.msg_Ptr = some 0
    ∧ (device_open s).2.msg = s.msg := by
  have hw : wrap_int 1 = 1 := by decide
  have e : device_open s
      = (0, { s with Device_Open := 1, msg_Ptr := some 0, refcnt := s.refcnt + 1 }) := by
    simp [device_open, h, hw, SUCCESS]
  rw [e]
  exact ⟨rfl, rfl, rfl, rfl, rfl⟩

/-- C5 at the device released after "hello" was read to the end, where the
cursor is at offset 5. -/
theorem device_open_closed_witness :
    (device_release { helloState with msg_Ptr := some 5 }).2.Device_Open = 0
    ∧ (device_release { helloState with msg_Ptr := some 5 }).2.msg_Ptr = some 5
    ∧ (device_open (device_release { helloState with msg_Ptr := some 5 }).2).1 = SUCCESS
    ∧ (device_open (device_release { helloState with msg_Ptr := some 5 }).2).2.msg_Ptr
        = some 0 :=
  ⟨by decide, by decide,
    (device_open_closed (device_release { helloState with msg_Ptr := some 5 }).2
      (by decide)).2.1,
    (device_open_closed (device_release { helloState with msg_Ptr := some 5 }).2
      (by decide)).2.2.2.1⟩

/-- C6: from the initial state the first `device_open` succeeds, giving the
state `opened`.  After it, let `ops` be any calls of `device_open`,
`device_read` and `device_write` (any arguments, faulting or not) with no
`device_release` among them: all are defined, every `device_open` among them
returns `-EBUSY`, and so does a `device_open` made after them.  When a
`device_release` follows, and after it any reads and writes `ops₂`, the next
`device_open` succeeds.  The scenario of the spec is the last conjunct:
open, open, release, open return 0, `-EBUSY`, 0, 0. -/
theorem open_exclusive (ops ops₂ : List Op)
    (h1 : ∀ op ∈ ops, op ≠ Op.release)
    (h2 : ∀ op ∈ ops₂, op ≠ Op.release ∧ op ≠ Op.open) :
    device_open initial = (SUCCESS, opened)
    ∧ (∃ rs s', run opened ops = some (rs, s') ∧ rs.length = ops.length
        ∧ (∀ x ∈ List.zip ops rs, x.1 = Op.open → x.2 = -EBUSY)
        ∧ (device_open s').1 = -EBUSY)
    ∧ (∃ rs s', run opened (ops ++ Op.release :: ops₂) = some (rs, s')
        ∧ (device_open s').1 = SUCCESS)
    ∧ Option.map Prod.fst (run initial [Op.open, Op.open, Op.release, Op.open])
        = some [SUCCESS, -EBUSY, 0, SUCCESS] := by
  have hg : opened.Device_Open = 1 := by decide
  obtain ⟨rs, s', hr, hl, hi, hg', hz⟩ := run_guarded ops opened Inv.opened
    (by rw [hg]; decide) h1
  rw [hg] at hg'
  refine ⟨by decide, ⟨rs, s', hr, hl, hz, ?_⟩, ?_, by decide⟩
  · rw [device_open_of_set s' (by rw [hg']; decide)]
  · obtain ⟨rs₂, t, hr₂, _, hgt⟩ := run_reads_writes ops₂ (device_release s').2 hi h2
    have h0 : (device_release s').2.Device_Open = 0 := by
      show wrap_int (s'.Device_Open - 1) = 0
      rw [hg']; decide
    rw [h0] at hgt
    refine ⟨rs ++ 0 :: rs₂, t, ?_, ?_⟩
    · rw [run_append ops (Op.release :: ops₂) opened rs s' hr,
        run_cons s' Op.release ops₂ 0 (device_release s').2 rfl, hr₂]
      rfl
    · rw [device_open_of_clear t hgt]
      rfl

/-- C6 at: a 3-byte read, a second open, a write of "hello", then the
release, a 100-byte read, and the open that follows. -/
theorem open_exclusive_witness :
    (∃ rs s', run opened [Op.read (fun _ => true) 3, Op.open,
          Op.write (userBytes hello) 5] = some (rs, s')
        ∧ (device_open s').1 = -EBUSY)
    ∧ (∃ rs s', run opened ([Op.read (fun _ => true) 3, Op.open,
          Op.write (userBytes hello) 5] ++ Op.release :: [Op.read (fun _ => true) 100])
          = some (rs, s')
        ∧ (device_open s').1 = SUCCESS) :=
  have h := open_exclusive
    [Op.read (fun _ => true) 3, Op.open, Op.write (userBytes hello) 5]
    [Op.read (fun _ => true) 100] (by simp) (by simp)
  ⟨h.2.1.imp fun _ h' => h'.imp fun _ h'' => ⟨h''.1, h''.2.2.2⟩, h.2.2.1⟩

/-- C7: in a state whose cursor is on a zero byte of the buffer,
`device_read` with any requested length (and any caller buffer) returns 0,
delivers nothing and leaves the whole state as it was; hence any number of
consecutive reads all return 0 and end in the same state. -/
theorem read_at_end_of_stream (s : State) (p : Nat)
    (hp : s.msg_Ptr = some p) (h0 : s.msg[p]? = some 0) :
    (∀ put_user length,
        device_read_user put_user s length = some { ret := 0, delivered := [], state := s })
    ∧ (∀ length, device_read s length = some { ret := 0, delivered := [], state := s })
    ∧ ∀ calls : List ((Nat → Bool) × Nat),
        run s (calls.map fun c => Op.read c.1 c.2) = some (calls.map fun _ => 0, s) := by
  have hall : ∀ put_user length,
      device_read_user put_user s length = some { ret := 0, delivered := [], state := s } := by
    intro put_user length
    simp [device_read_user, hp, h0]
  refine ⟨hall, fun length => hall _ length, ?_⟩
  intro calls
  induction calls with
  | nil => rfl
  | cons c calls ih =>
    have hs : step s (Op.read c.1 c.2) = some (0, s) := by
      show Option.map (fun r => (r.ret, r.state)) (device_read_user c.1 s c.2) = _
      rw [hall]
      rfl
    rw [List.map_cons, run_cons s _ _ 0 s hs, ih]
    rfl

/-- C7 at the device holding "hello" with the cursor at offset 5, the
terminator: three reads in a row. -/
theorem read_at_end_of_stream_witness :
    ({ helloState with msg_Ptr := some 5 } : State).msg[5]? = some 0
    ∧ run { helloState with msg_Ptr := some 5 }
        [Op.read (fun _ => true) 100, Op.read (fun _ => true) 1, Op.read (fun _ => false) 7]
        = some ([0, 0, 0], { helloState with msg_Ptr := some 5 }) :=
  ⟨by decide,
    (read_at_end_of_stream { helloState with msg_Ptr := some 5 } 5 rfl (by decide)).2.2
      [(fun _ => true, 100), (fun _ => true, 1), (fun _ => false, 7)]⟩

/-- C9: in every state `device_release` returns 0, changes neither the
buffer nor the cursor, and takes one off `Device_Open`; so in every state
whose open guard is set (`Device_Open = 1`) it leaves the guard clear
(`Device_Open = 0`).  The only other change is the reference count, which
goes down by one. -/
theorem device_release_frame (s : State) :
    (device_release s).1 = 0
    ∧ (device_release s).2.msg = s.msg
    ∧ (device_release s).2.msg_Ptr = s.msg_Ptr
    ∧ (device_release s).2.Major = s.Major
    ∧ (device_release s).2.refcnt = s.refcnt - 1
    ∧ (device_release s).2.Device_Open = wrap_int (s.Device_Open - 1)
    ∧ (s.Device_Open = 1 →
        (device_release s).2.Device_Open = 0
        ∧ device_release s = (0, { s with Device_Open := 0, refcnt := s.refcnt - 1 })) := by
  refine ⟨rfl, rfl, rfl, rfl, rfl, rfl, fun h => ?_⟩
  have hw : wrap_int (1 - 1) = 0 := by decide
  have e : device_release s = (0, { s with Device_Open := 0, refcnt := s.refcnt - 1 }) := by
    simp only [device_release, h, hw]
  rw [e]
  exact ⟨rfl, rfl⟩

/-- C9 at the opened device holding "hello", cursor at offset 3. -/
theorem device_release_frame_witness :
    ({ helloState with msg_Ptr := some 3 } : State).Device_Open = 1
    ∧ (device_release { helloState with msg_Ptr := some 3 }).2.Device_Open = 0
    ∧ (device_release { helloState with msg_Ptr := some 3 }).2.msg = helloState.msg
    ∧ (device_release { helloState with msg_Ptr := some 3 }).2.msg_Ptr = some 3 :=
  have h := device_release_frame { helloState with msg_Ptr := some 3 }
  ⟨by decide, (h.2.2.2.2.2.2 (by decide)).1, h.2.1, h.2.2.1⟩

/-- C8: in every open state (`Device_Open = 1`), wherever the cursor is,
`device_release` followed at once by `device_open` succeeds and gives a
state with the same buffer and the cursor at offset 0.  When the buffer
holds a terminator, a drain after the re-open (positive requested lengths,
at least `BUF_LEN` calls allowed) returns the whole content of the buffer,
its bytes before the first terminator; when the buffer is the one a write
of a zero-free `b` of at most 79 bytes left, that content is `b`. -/
theorem reopen_resets_cursor (s : State) (h : s.Device_Open = 1) :
    (device_release s).1 = 0
    ∧ (device_open (device_release s).2).1 = SUCCESS
    ∧ (device_open (device_release s).2).2.msg = s.msg
    ∧ (device_open (device_release s).2).2.msg_Ptr = some 0
    ∧ (∀ (lens : Nat → Nat) (fuel : Nat), (0 : Byte) ∈ s.msg → (∀ i, 0 < lens i) →
        BUF_LEN ≤ fuel →
        ∃ s', drain fuel lens (device_open (device_release s).2).2
          = some (s.msg.takeWhile (fun c => decide (c ≠ 0)), s'))
    ∧ (∀ (lens : Nat → Nat) (fuel : Nat) (t : State) (b : List Byte),
        b.length ≤ BUF_LEN - 1 → (∀ c ∈ b, c ≠ 0) →
        s.msg = (device_write t (userBytes b) b.length).2.msg → (∀ i, 0 < lens i) →
        BUF_LEN ≤ fuel →
        ∃ s', drain fuel lens (device_open (device_release s).2).2 = some (b, s')) := by
  have hw : wrap_int (1 - 1) = 0 := by decide
  have h0 : (device_release s).2.Device_Open = 0 := by
    show wrap_int (s.Device_Open - 1) = 0
    rw [h, hw]
  have e := device_open_of_clear (device_release s).2 h0
  have hmsg : (device_open (device_release s).2).2.msg = s.msg := by rw [e]; rfl
  have hptr : (device_open (device_release s).2).2.msg_Ptr = some 0 := by rw [e]
  have hdrain : ∀ (lens : Nat → Nat) (fuel : Nat), remaining s.msg 0 < BUF_LEN →
      (∀ i, 0 < lens i) → BUF_LEN ≤ fuel →
      ∃ s', drain fuel lens (device_open (device_release s).2).2
        = some (s.msg.takeWhile (fun c => decide (c ≠ 0)), s') := by
    intro lens fuel hterm hpos hfuel
    have hd := drain_spec fuel lens (device_open (device_release s).2).2 0 hptr
      (by rw [hmsg]; omega) hpos (by rw [hmsg]; omega)
    have hl : List.take (remaining (device_open (device_release s).2).2.msg 0)
        (List.drop 0 (device_open (device_release s).2).2.msg)
        = s.msg.takeWhile (fun c => decide (c ≠ 0)) := by
      rw [take_remaining, List.drop_zero, hmsg]
    rw [hl] at hd
    exact ⟨_, hd⟩
  refine ⟨rfl, by rw [e]; rfl, hmsg, hptr, ?_, ?_⟩
  · intro lens fuel hterm hpos hfuel
    have := remaining_lt_of_mem s.msg hterm
    rw [s.msg_size] at this
    exact hdrain lens fuel this hpos hfuel
  · intro lens fuel t b hlen hnz hm hpos hfuel
    obtain ⟨hm', hr⟩ := remaining_after_write t b hlen hnz
    rw [← hm] at hm' hr
    have hB : BUF_LEN = 80 := rfl
    obtain ⟨s', hs'⟩ := hdrain lens fuel (by rw [hr]; omega) hpos hfuel
    refine ⟨s', ?_⟩
    rw [hs', ← List.drop_zero s.msg, ← take_remaining, hr, List.drop_zero, hm', List.take_left]

/-- C8 at the opened device holding "hello" with the cursor at offset 5
(exhausted): release, open, then a drain in reads of 2 bytes. -/
theorem reopen_resets_cursor_witness :
    ({ helloState with msg_Ptr := some 5 } : State).Device_Open = 1
    ∧ (device_open (device_release { helloState with msg_Ptr := some 5 }).2).1 = SUCCESS
    ∧ (device_open (device_release { helloState with msg_Ptr := some 5 }).2).2.msg_Ptr = some 0
    ∧ ∃ s', drain 80 (fun _ => 2)
          (device_open (device_release { helloState with msg_Ptr := some 5 }).2).2
        = some (hello, s') :=
  have h := reopen_resets_cursor { helloState with msg_Ptr := some 5 } (by decide)
  ⟨by decide, h.2.1, h.2.2.2.1,
    h.2.2.2.2.2 (fun _ => 2) 80 opened hello (by simp [hello, BUF_LEN]) (by simp [hello])
      rfl (fun _ => Nat.succ_pos 1) (by simp [BUF_LEN])⟩

/-- C10, as stated, fails: the device holds "hello" with the cursor at
offset 0, where a drain returns "hello".  A 2-byte write whose byte 0 is `x`
and whose byte 1 cannot be read returns `-EFAULT`, and the drain that follows
returns "xello" when the faulting `get_user` leaves its destination alone,
and "x" when it zeroes it; neither is "hello". -/
theorem device_write_fault_counterexample :
    Option.map Prod.fst (drain 80 (fun _ => 100) helloState) = some hello
    ∧ (device_write helloState tornBuff 2).1 = -EFAULT
    ∧ Option.map Prod.fst (drain 80 (fun _ => 100) (device_write helloState tornBuff 2).2)
        = some [120, 101, 108, 108, 111]
    ∧ (device_write helloState tornBuffZeroing 2).1 = -EFAULT
    ∧ Option.map Prod.fst
        (drain 80 (fun _ => 100) (device_write helloState tornBuffZeroing 2).2)
        = some [120]
    ∧ Option.map Prod.fst (drain 80 (fun _ => 100) (device_write helloState tornBuff 2).2)
        ≠ Option.map Prod.fst (drain 80 (fun _ => 100) helloState)
    ∧ Option.map Prod.fst
        (drain 80 (fun _ => 100) (device_write helloState tornBuffZeroing 2).2)
        ≠ Option.map Prod.fst (drain 80 (fun _ => 100) helloState) := by
  decide

/-- C10 (amended): whenever one of the first `min len 79` caller bytes cannot
be read, `device_write` returns `-EFAULT` and leaves the cursor, the open
guard and the reference count as they were.  With `j` the first such byte,
the buffer bytes after `j` are unchanged, and when the cursor is beyond `j` a
drain after the failed write returns the bytes a drain from the state before
it returns. -/
theorem device_write_fault (s : State) (buff : Nat → UserByte) (len i₀ : Nat)
    (hi : i₀ < min len (BUF_LEN - 1)) (hf : ∃ st, buff i₀ = UserByte.fault st) :
    (device_write s buff len).1 = -EFAULT
    ∧ (device_write s buff len).2.msg_Ptr = s.msg_Ptr
    ∧ (device_write s buff len).2.Device_Open = s.Device_Open
    ∧ (device_write s buff len).2.refcnt = s.refcnt
    ∧ ∃ j, j ≤ i₀ ∧ (∃ st, buff j = UserByte.fault st)
        ∧ (∀ i, i < j → ∃ c, buff i = UserByte.ok c)
        ∧ (∀ i, j < i → (device_write s buff len).2.msg[i]? = s.msg[i]?)
        ∧ (∀ p, s.msg_Ptr = some p → j < p → ∀ fuel lens,
            Option.map Prod.fst (drain fuel lens (device_write s buff len).2)
              = Option.map Prod.fst (drain fuel lens s)) := by
  have hB : BUF_LEN = 80 := rfl
  obtain ⟨j, hj, ⟨st, hst⟩, hok⟩ := first_fault buff i₀ hf
  have hf' : ∀ i, i < j → buff i = UserByte.ok
      (match buff i with
        | UserByte.ok c => c
        | UserByte.fault _ => 0) := by
    intro i hi'
    obtain ⟨c, hc⟩ := hok i hi'
    rw [hc]
  obtain ⟨a1, _, a3⟩ := write_loop_fault buff _ j st hst (min len (BUF_LEN - 1)) 0 s
    (Nat.zero_le _) (by omega) (fun i _ hi' => hf' i hi') (by omega)
  obtain ⟨_, f2, f3, f4, _⟩ := write_loop_frame buff (min len (BUF_LEN - 1)) 0 s
  have e : device_write s buff len
      = (-EFAULT, (write_loop buff (min len (BUF_LEN - 1)) 0 s).2) := by
    simp only [device_write, bytes_to_copy_eq, a1, if_true]
  rw [e]
  refine ⟨rfl, f3, f2, f4, j, hj, ⟨st, hst⟩, hok, a3, ?_⟩
  intro p hp hjp fuel lens
  exact drain_congr fuel lens _ s p (f3.trans hp) hp (fun i hi' => a3 i (by omega))

/-- C10 (amended) at the device holding "hello" with the cursor at offset 3,
and the 2-byte write whose byte 1 cannot be read: the drain after it returns
"lo", as the drain before it does. -/
theorem device_write_fault_witness :
    1 < min 2 (BUF_LEN - 1) ∧ (∃ st, tornBuff 1 = UserByte.fault st)
    ∧ (device_write { helloState with msg_Ptr := some 3 } tornBuff 2).1 = -EFAULT
    ∧ (device_write { helloState with msg_Ptr := some 3 } tornBuff 2).2.msg_Ptr = some 3
    ∧ Option.map Prod.fst (drain 80 (fun _ => 100) { helloState with msg_Ptr := some 3 })
        = some [108, 111]
    ∧ Option.map Prod.fst (drain 80 (fun _ => 100)
          (device_write { helloState with msg_Ptr := some 3 } tornBuff 2).2)
        = Option.map Prod.fst (drain 80 (fun _ => 100) { helloState with msg_Ptr := some 3 }) :=
  have h := device_write_fault { helloState with msg_Ptr := some 3 } tornBuff 2 1
    (by decide) ⟨none, rfl⟩
  ⟨by decide, ⟨none, rfl⟩, h.1, h.2.1, by decide,
    h.2.2.2.2.elim fun _ hj =>
      hj.2.2.2.2 3 rfl (Nat.lt_of_le_of_lt hj.1 (by decide)) 80 (fun _ => 100)⟩

/-! ## Reads and writes leave the guard alone -/

theorem device_read_user_null (put_user : Nat → Bool) (s : State) (length : Nat)
    (hp : s.msg_Ptr = none) : device_read_user put_user s length = none := by
  simp [device_read_user, hp]

theorem device_read_user_outside (put_user : Nat → Bool) (s : State) (p length : Nat)
    (hp : s.msg_Ptr = some p) (hc : s.msg[p]? = none) :
    device_read_user put_user s length = none := by
  simp [device_read_user, hp, hc]

theorem device_read_user_loop (put_user : Nat → Bool) (s : State) (p length : Nat) (c : Byte)
    (hp : s.msg_Ptr = some p) (hc : s.msg[p]? = some c) (hz : c ≠ 0) :
    device_read_user put_user s length
      = (read_loop put_user s.msg length p 0).map fun x =>
          { ret := (x.2.1 : Int), delivered := x.2.2, state := { s with msg_Ptr := some x.1 } } := by
  simp only [device_read_user, hp, hc, hz, if_false]
  cases read_loop put_user s.msg length p 0 with
  | none => rfl
  | some x => rfl

/-- A read that is defined changes nothing but the cursor and returns a
count, never a negative value. -/
theorem device_read_user_frame (put_user : Nat → Bool) (s : State) (length : Nat)
    (r : ReadResult) (h : device_read_user put_user s length = some r) :
    r.state.msg = s.msg ∧ r.state.Device_Open = s.Device_Open
    ∧ r.state.refcnt = s.refcnt ∧ r.state.Major = s.Major ∧ 0 ≤ r.ret := by
  cases hp : s.msg_Ptr with
  | none => rw [device_read_user_null put_user s length hp] at h; cases h
  | some p =>
    cases hc : s.msg[p]? with
    | none => rw [device_read_user_outside put_user s p length hp hc] at h; cases h
    | some c =>
      by_cases hz : c = 0
      · subst hz
        rw [device_read_user_at_terminator put_user s p length hp hc] at h
        cases h
        exact ⟨rfl, rfl, rfl, rfl, le_refl _⟩
      · rw [device_read_user_loop put_user s p length c hp hc hz] at h
        cases hl : read_loop put_user s.msg length p 0 with
        | none => rw [hl] at h; cases h
        | some x =>
          rw [hl] at h
          cases h
          exact ⟨rfl, rfl, rfl, rfl, Int.ofNat_nonneg _⟩

/-- The value returned and the next state do not depend on `put_user`. -/
theorem device_read_user_ret (put_user : Nat → Bool) (s : State) (length : Nat) :
    Option.map (fun r => (r.ret, r.state)) (device_read_user put_user s length)
      = Option.map (fun r => (r.ret, r.state)) (device_read s length) := by
  unfold device_read
  cases hp : s.msg_Ptr with
  | none => rw [device_read_user_null _ s length hp, device_read_user_null _ s length hp]
  | some p =>
    cases hc : s.msg[p]? with
    | none =>
      rw [device_read_user_outside _ s p length hp hc, device_read_user_outside _ s p length hp hc]
    | some c =>
      by_cases hz : c = 0
      · subst hz
        rw [device_read_user_at_terminator _ s p length hp hc,
          device_read_user_at_terminator _ s p length hp hc]
      · have hu := read_loop_user put_user s.msg length p 0
        rw [device_read_user_loop _ s p length c hp hc hz,
          device_read_user_loop _ s p length c hp hc hz]
        cases h1 : read_loop put_user s.msg length p 0 with
        | none =>
          rw [h1] at hu
          cases h2 : read_loop (fun _ => true) s.msg length p 0 with
          | none => rfl
          | some y => rw [h2] at hu; simp at hu
        | some x =>
          rw [h1] at hu
          cases h2 : read_loop (fun _ => true) s.msg length p 0 with
          | none => rw [h2] at hu; simp at hu
          | some y =>
            rw [h2] at hu
            simp only [Option.map_some', Option.some.injEq, Prod.mk.injEq] at hu
            simp only [Option.map_some', hu.1, hu.2]

theorem write_loop_congr (buff : Nat → UserByte) :
    ∀ (todo index : Nat) (s t : State), s.msg = t.msg →
      (write_loop buff todo index s).1 = (write_loop buff todo index t).1
      ∧ (write_loop buff todo index s).2.msg = (write_loop buff todo index t).2.msg := by
  intro todo
  induction todo with
  | zero => intro index s t h; exact ⟨rfl, h⟩
  | succ todo ih =>
    intro index s t h
    cases hb : buff index with
    | ok c =>
      simp only [write_loop, hb]
      exact ih (index + 1) (s.store index c) (t.store index c) (by simp [h])
    | fault st =>
      cases st with
      | none => simp only [write_loop, hb, true_and]; exact h
      | some c => simp only [write_loop, hb, store_msg, h, and_self]

/-- A write returns the same value and leaves the same buffer and cursor in
two states with the same buffer. -/
theorem device_write_congr (s t : State) (buff : Nat → UserByte) (len : Nat)
    (hm : s.msg = t.msg) (hp : s.msg_Ptr = t.msg_Ptr) :
    (device_write s buff len).1 = (device_write t buff len).1
    ∧ (device_write s buff len).2.msg = (device_write t buff len).2.msg
    ∧ (device_write s buff len).2.msg_Ptr = (device_write t buff len).2.msg_Ptr := by
  obtain ⟨h1, h2⟩ := write_loop_congr buff (min len (BUF_LEN - 1)) 0 s t hm
  have fs := (write_loop_frame buff (min len (BUF_LEN - 1)) 0 s).2.2.1
  have ft := (write_loop_frame buff (min len (BUF_LEN - 1)) 0 t).2.2.1
  cases hr : (write_loop buff (min len (BUF_LEN - 1)) 0 t).1 with
  | true =>
    rw [hr] at h1
    simp only [device_write, bytes_to_copy_eq, hr, h1, if_true, true_and]
    exact ⟨h2, by rw [fs, ft, hp]⟩
  | false =>
    rw [hr] at h1
    simp only [device_write, bytes_to_copy_eq, hr, h1, Bool.false_eq_true, if_false, store_msg,
      h2, and_self]

/-- A read answers alike in two states with the same buffer and cursor. -/
theorem device_read_user_congr (put_user : Nat → Bool) (s t : State) (length : Nat)
    (hm : s.msg = t.msg) (hp : s.msg_Ptr = t.msg_Ptr) :
    Option.map (fun r => (r.ret, r.delivered, r.state.msg, r.state.msg_Ptr))
        (device_read_user put_user s length)
      = Option.map (fun r => (r.ret, r.delivered, r.state.msg, r.state.msg_Ptr))
        (device_read_user put_user t length) := by
  cases ht : t.msg_Ptr with
  | none =>
    rw [device_read_user_null _ s length (hp.trans ht), device_read_user_null _ t length ht]
  | some p =>
    have hs := hp.trans ht
    cases hc : t.msg[p]? with
    | none =>
      rw [device_read_user_outside _ s p length hs (by rw [hm]; exact hc),
        device_read_user_outside _ t p length ht hc]
    | some c =>
      by_cases hz : c = 0
      · subst hz
        rw [device_read_user_at_terminator _ s p length hs (by rw [hm]; exact hc),
          device_read_user_at_terminator _ t p length ht hc]
        simp only [Option.map_some', hm, hp]
      · have hl : read_loop put_user s.msg length p 0 = read_loop put_user t.msg length p 0 := by
          rw [hm]
        rw [device_read_user_loop _ s p length c hs (by rw [hm]; exact hc) hz,
          device_read_user_loop _ t p length c ht hc hz, hl]
        cases read_loop put_user t.msg length p 0 with
        | none => rfl
        | some x => simp only [Option.map_some', hm]

/-! ## Invariants along arbitrary traces -/

theorem run_cons_some (s : State) (op : Op) (ops : List Op) (rs : List Int) (s' : State)
    (h : run s (op :: ops) = some (rs, s')) :
    ∃ r t rs', step s op = some (r, t) ∧ run t ops = some (rs', s') ∧ rs = r :: rs' := by
  cases hs : step s op with
  | none => simp [run, hs] at h
  | some x =>
    obtain ⟨r, t⟩ := x
    rw [run_cons s op ops r t hs] at h
    cases hr : run t ops with
    | none => rw [hr] at h; cases h
    | some y =>
      obtain ⟨rs', t'⟩ := y
      simp only [hr, Option.map_some', Option.some.injEq, Prod.mk.injEq] at h
      obtain ⟨h1, h2⟩ := h
      subst h1 h2
      exact ⟨r, t, rs', rfl, hr, rfl⟩

/-- What a call can change: a read only the cursor; a write the buffer and
the cursor, never the last buffer byte when that is zero. -/
theorem step_frame (s : State) (op : Op) (r : Int) (s' : State)
    (h : step s op = some (r, s')) :
    (s.msg[BUF_LEN - 1]? = some 0 → s'.msg[BUF_LEN - 1]? = some 0)
    ∧ s'.Major = s.Major
    ∧ (∀ put_user length, op = Op.read put_user length →
        s'.Device_Open = s.Device_Open ∧ s'.refcnt = s.refcnt ∧ s'.msg = s.msg)
    ∧ (∀ buff len, op = Op.write buff len →
        s'.Device_Open = s.Device_Open ∧ s'.refcnt = s.refcnt) := by
  cases op with
  | «open» =>
    have e : device_open s = (r, s') := by simpa [step] using h
    refine ⟨fun h0 => ?_, ?_, fun _ _ h1 => Op.noConfusion h1, fun _ _ h1 => Op.noConfusion h1⟩
    · by_cases hg : s.Device_Open = 0
      · rw [device_open_of_clear s hg] at e; cases e; exact h0
      · rw [device_open_of_set s hg] at e; cases e; exact h0
    · by_cases hg : s.Device_Open = 0
      · rw [device_open_of_clear s hg] at e; cases e; rfl
      · rw [device_open_of_set s hg] at e; cases e; rfl
  | release =>
    have e : device_release s = (r, s') := by simpa [step] using h
    cases e
    exact ⟨fun h0 => h0, rfl, fun _ _ h1 => Op.noConfusion h1, fun _ _ h1 => Op.noConfusion h1⟩
  | read put_user length =>
    cases hd : device_read_user put_user s length with
    | none => simp [step, hd] at h
    | some x =>
      have e : (x.ret, x.state) = (r, s') := by simpa [step, hd] using h
      cases e
      obtain ⟨f1, f2, f3, f4, _⟩ := device_read_user_frame put_user s length x hd
      exact ⟨fun h0 => by rw [f1]; exact h0, f4, fun _ _ _ => ⟨f2, f3, f1⟩,
        fun _ _ h1 => Op.noConfusion h1⟩
  | write buff len =>
    have e : device_write s buff len = (r, s') := by simpa [step] using h
    obtain ⟨f1, f2, f3, _, f5⟩ := device_write_frame s buff len
    rw [e] at f1 f2 f3 f5
    exact ⟨f5, f3, fun _ _ h1 => Op.noConfusion h1, fun _ _ _ => ⟨f1, f2⟩⟩

/-- The last buffer byte stays zero along every sequence of calls. -/
theorem run_last_byte (ops : List Op) :
    ∀ (s : State) (rs : List Int) (s' : State), run s ops = some (rs, s') →
      s.msg[BUF_LEN - 1]? = some 0 → s'.msg[BUF_LEN - 1]? = some 0 := by
  induction ops with
  | nil =>
    intro s rs s' h h0
    simp only [run, Option.some.injEq, Prod.mk.injEq] at h
    rw [← h.2]; exact h0
  | cons op ops ih =>
    intro s rs s' h h0
    obtain ⟨r, t, rs', hs, hr, _⟩ := run_cons_some s op ops rs s' h
    exact ih t rs' s' hr ((step_frame s op r t hs).1 h0)

/-- From a state with the invariant every sequence of calls is defined and
ends in a state with the invariant. -/
theorem run_inv (ops : List Op) :
    ∀ (s : State), Inv s →
      ∃ rs s', run s ops = some (rs, s') ∧ rs.length = ops.length ∧ Inv s' := by
  induction ops with
  | nil => intro s h; exact ⟨[], s, rfl, rfl, h⟩
  | cons op ops ih =>
    intro s h
    obtain ⟨r, t, hs, hi, _⟩ := Inv.step s op h
    obtain ⟨rs, t', hr, hl, hi'⟩ := ih t hi
    exact ⟨r :: rs, t', by rw [run_cons s op ops r t hs, hr]; rfl, by simp [hl], hi'⟩

/-- One call keeps the guard invariant, a release being made only while the
guard is 1. -/
theorem sessionInv_step (s : State) (op : Op) (r : Int) (s' : State) (h : SessionInv s)
    (hs : step s op = some (r, s')) (hrel : op = Op.release → s.Device_Open = 1) :
    SessionInv s' := by
  obtain ⟨hg, hc⟩ := h
  have hw1 : wrap_int (1 - 1) = 0 := by decide
  cases op with
  | «open» =>
    have e : device_open s = (r, s') := by simpa [step] using hs
    by_cases h0 : s.Device_Open = 0
    · rw [device_open_of_clear s h0] at e
      cases e
      exact ⟨Or.inr rfl, by show s.refcnt + 1 = 1; rw [hc, h0]; rfl⟩
    · rw [device_open_of_set s h0] at e
      cases e
      exact ⟨hg, hc⟩
  | release =>
    have e : device_release s = (r, s') := by simpa [step] using hs
    have h1 := hrel rfl
    cases e
    refine ⟨Or.inl ?_, ?_⟩
    · show wrap_int (s.Device_Open - 1) = 0
      rw [h1, hw1]
    · show s.refcnt - 1 = wrap_int (s.Device_Open - 1)
      rw [hc, h1, hw1]; rfl
  | read put_user length =>
    obtain ⟨f1, f2, _⟩ := (step_frame s _ r s' hs).2.2.1 put_user length rfl
    exact ⟨by rw [f1]; exact hg, by rw [f1, f2]; exact hc⟩
  | write buff len =>
    obtain ⟨f1, f2⟩ := (step_frame s _ r s' hs).2.2.2 buff len rfl
    exact ⟨by rw [f1]; exact hg, by rw [f1, f2]; exact hc⟩

theorem sessionInv_run (ops : List Op) :
    ∀ (s : State) (rs : List Int) (s' : State), SessionInv s → run s ops = some (rs, s') →
      sessionDiscipline s ops = true → SessionInv s' := by
  induction ops with
  | nil =>
    intro s rs s' h hr _
    simp only [run, Option.some.injEq, Prod.mk.injEq] at hr
    rw [← hr.2]; exact h
  | cons op ops ih =>
    intro s rs s' h hr hd
    obtain ⟨r, t, rs', hs, hr', _⟩ := run_cons_some s op ops rs s' hr
    simp only [sessionDiscipline, hs, Bool.and_eq_true] at hd
    refine ih t rs' s' (sessionInv_step s op r t h hs ?_) hr' hd.2
    intro ho
    subst ho
    simpa using hd.1

theorem sessionInv_initial : SessionInv initial :=
  ⟨Or.inl rfl, rfl⟩
/-! ## The cursor and the first terminator -/

theorem faultFree_write (buff : Nat → UserByte) (len : Nat)
    (h : (Op.write buff len).faultFree = true) :
    ∀ i, i < min len (BUF_LEN - 1) → ∃ c, buff i = UserByte.ok c := by
  intro i hi
  simp only [Op.faultFree, List.all_eq_true, List.mem_range] at h
  have := h i hi
  cases hb : buff i with
  | ok c => exact ⟨c, rfl⟩
  | fault st => rw [hb] at this; cases this

theorem cursorInv_inv (s : State) (h : CursorInv s) : Inv s := by
  obtain ⟨h79, p, hp, hle⟩ := h
  have := Inv.terminator s 0 h79 (Nat.zero_le _)
  exact ⟨h79, p, hp, by omega⟩

theorem cursorInv_opened : CursorInv opened :=
  ⟨by decide, 0, by decide, Nat.zero_le _⟩

/-- One call that is not a write aborting with a copy fault is defined and
keeps the cursor at or before the first terminator. -/
theorem cursorInv_step (s : State) (op : Op) (h : CursorInv s) (hf : op.faultFree = true) :
    ∃ r s', step s op = some (r, s') ∧ CursorInv s' := by
  have hB : BUF_LEN = 80 := rfl
  have hi := cursorInv_inv s h
  obtain ⟨h79, p, hp, hle⟩ := h
  cases op with
  | «open» =>
    refine ⟨(device_open s).1, (device_open s).2, rfl, ?_⟩
    by_cases hg : s.Device_Open = 0
    · rw [device_open_of_clear s hg]
      exact ⟨h79, 0, rfl, Nat.zero_le _⟩
    · rw [device_open_of_set s hg]
      exact ⟨h79, p, hp, hle⟩
  | release =>
    exact ⟨(device_release s).1, (device_release s).2, rfl, h79, p, hp, hle⟩
  | read put_user length =>
    have ht0 := Inv.terminator s 0 h79 (Nat.zero_le _)
    obtain ⟨c, hc⟩ := s.byte_at p (by omega)
    by_cases hz : c = 0
    · subst hz
      refine ⟨0, s, ?_, h79, p, hp, hle⟩
      show Option.map (fun r => (r.ret, r.state)) (device_read_user put_user s length) = _
      rw [device_read_user_at_terminator put_user s p length hp hc]
      rfl
    · have ht := Inv.terminator s p h79 (by omega)
      obtain ⟨out, ho⟩ := device_read_user_spec put_user s p length c hp hc hz
        (Or.inr (by omega))
      have hadd := remaining_add s.msg p 0 hle
      rw [Nat.zero_add] at hadd
      refine ⟨((min length (remaining s.msg p) : Nat) : Int),
        { s with msg_Ptr := some (p + min length (remaining s.msg p)) }, ?_, h79,
        p + min length (remaining s.msg p), rfl, ?_⟩
      · show Option.map (fun r => (r.ret, r.state)) (device_read_user put_user s length) = _
        rw [ho]
        rfl
      · show p + min length (remaining s.msg p) ≤ remaining s.msg 0
        have := Nat.min_le_right length (remaining s.msg p)
        omega
  | write buff len =>
    have hok := faultFree_write buff len hf
    have hf' : ∀ i, i < min len (BUF_LEN - 1) → buff i = UserByte.ok
        (match buff i with
          | UserByte.ok c => c
          | UserByte.fault _ => 0) := by
      intro i hi'
      obtain ⟨c, hc⟩ := hok i hi'
      rw [hc]
    obtain ⟨_, w2, _⟩ := device_write_ok s buff len _ hf'
    exact ⟨(device_write s buff len).1, (device_write s buff len).2, rfl,
      (device_write_frame s buff len).2.2.2.2 h79, 0, w2, Nat.zero_le _⟩

theorem cursorInv_run (ops : List Op) :
    ∀ (s : State), CursorInv s → (∀ op ∈ ops, op.faultFree = true) →
      ∃ rs s', run s ops = some (rs, s') ∧ CursorInv s' := by
  induction ops with
  | nil => intro s h _; exact ⟨[], s, rfl, h⟩
  | cons op ops ih =>
    intro s h hf
    obtain ⟨r, t, hs, hi⟩ := cursorInv_step s op h (hf op (List.mem_cons_self _ _))
    obtain ⟨rs, t', hr, hi'⟩ := ih t hi (fun o ho => hf o (List.mem_cons_of_mem _ ho))
    exact ⟨r :: rs, t', by rw [run_cons s op ops r t hs, hr]; rfl, hi'⟩

/-! ## The buffer offsets the calls touch -/

theorem read_loop_reads_bound (msg : List Byte) :
    ∀ (length ptr : Nat), ptr + remaining msg ptr < msg.length →
      ∀ i ∈ read_loop_reads msg length ptr, i < msg.length := by
  intro length
  induction length with
  | zero => intro ptr _ i hi; simp [read_loop_reads] at hi
  | succ length ih =>
    intro ptr h i hi
    cases hm : msg[ptr]? with
    | none =>
      have hle : msg.length ≤ ptr := by simpa using hm
      omega
    | some c =>
      by_cases hc : c = 0
      · simp only [read_loop_reads, hm, hc, if_true, List.mem_singleton] at hi
        omega
      · have hr := remaining_of_nonzero msg ptr c hm hc
        simp only [read_loop_reads, hm, hc, if_false, List.mem_cons] at hi
        rcases hi with hi | hi | hi
        · omega
        · omega
        · exact ih (ptr + 1) (by omega) i hi

/-- Under the invariant a read evaluates `*msg_Ptr` inside `msg` only. -/
theorem device_read_reads_bound (s : State) (length : Nat) (h : Inv s) :
    ∃ l, device_read_reads s length = some l ∧ ∀ i ∈ l, i < BUF_LEN := by
  have hB : BUF_LEN = 80 := rfl
  obtain ⟨h79, p, hp, hle⟩ := h
  obtain ⟨c, hc⟩ := s.byte_at p (by omega)
  have ht := Inv.terminator s p h79 hle
  by_cases hz : c = 0
  · refine ⟨[p], by simp [device_read_reads, hp, hc, hz], ?_⟩
    intro i hi
    simp only [List.mem_singleton] at hi
    omega
  · refine ⟨p :: read_loop_reads s.msg length p, by simp [device_read_reads, hp, hc, hz], ?_⟩
    intro i hi
    rw [List.mem_cons] at hi
    rcases hi with hi | hi
    · omega
    · have := read_loop_reads_bound s.msg length p (by rw [s.msg_size]; omega) i hi
      rw [s.msg_size] at this
      exact this

theorem write_loop_writes_bound (buff : Nat → UserByte) :
    ∀ (todo index i : Nat), i ∈ write_loop_writes buff todo index →
      index ≤ i ∧ i < index + todo := by
  intro todo
  induction todo with
  | zero => intro index i hi; simp [write_loop_writes] at hi
  | succ todo ih =>
    intro index i hi
    cases hb : buff index with
    | ok c =>
      simp only [write_loop_writes, hb, List.mem_cons] at hi
      rcases hi with hi | hi
      · omega
      · have := ih (index + 1) i hi
        omega
    | fault st =>
      simp only [write_loop_writes, hb, List.mem_singleton] at hi
      omega

/-- A write touches `msg` inside its 80 bytes only, in every state. -/
theorem device_write_writes_bound (s : State) (buff : Nat → UserByte) (len : Nat) :
    ∀ i ∈ device_write_writes s buff len, i < BUF_LEN := by
  have hB : BUF_LEN = 80 := rfl
  have hn : min len (BUF_LEN - 1) ≤ BUF_LEN - 1 := Nat.min_le_right _ _
  intro i hi
  simp only [device_write_writes, bytes_to_copy_eq, List.mem_append] at hi
  rcases hi with hi | hi
  · have := write_loop_writes_bound buff _ 0 i hi
    omega
  · cases hr : (write_loop buff (min len (BUF_LEN - 1)) 0 s).1 with
    | true => simp [hr] at hi
    | false =>
      simp only [hr, Bool.false_eq_true, if_false, List.mem_singleton] at hi
      omega

/-- Under the invariant a read is defined and returns a count between 0 and
the smaller of `length` and 79. -/
theorem inv_read_ret (put_user : Nat → Bool) (s : State) (length : Nat) (h : Inv s) :
    ∃ r, device_read_user put_user s length = some r ∧ 0 ≤ r.ret
      ∧ r.ret ≤ ((BUF_LEN - 1 : Nat) : Int) ∧ r.ret ≤ (length : Int) := by
  have hB : BUF_LEN = 80 := rfl
  obtain ⟨h79, p, hp, hle⟩ := h
  obtain ⟨c, hc⟩ := s.byte_at p (by omega)
  have ht := Inv.terminator s p h79 hle
  by_cases hz : c = 0
  · subst hz
    exact ⟨_, device_read_user_at_terminator put_user s p length hp hc, le_refl _,
      Int.ofNat_nonneg _, Int.ofNat_nonneg _⟩
  · obtain ⟨out, ho⟩ := device_read_user_spec put_user s p length c hp hc hz
      (Or.inr (by omega))
    refine ⟨_, ho, Int.ofNat_nonneg _, ?_, ?_⟩
    · show ((min length (remaining s.msg p) : Nat) : Int) ≤ ((BUF_LEN - 1 : Nat) : Int)
      have := Nat.min_le_right length (remaining s.msg p)
      exact_mod_cast (by omega : min length (remaining s.msg p) ≤ BUF_LEN - 1)
    · show ((min length (remaining s.msg p) : Nat) : Int) ≤ (length : Int)
      exact_mod_cast Nat.min_le_left length (remaining s.msg p)

/-- The loop has no defined result exactly when it evaluates `*msg_Ptr` at
an offset outside `msg`. -/
theorem read_loop_none_iff (put_user : Nat → Bool) (msg : List Byte) :
    ∀ (length ptr n : Nat),
      read_loop put_user msg length ptr n = none
        ↔ ∃ i ∈ read_loop_reads msg length ptr, msg.length ≤ i := by
  intro length
  induction length with
  | zero => intro ptr n; simp [read_loop, read_loop_reads]
  | succ length ih =>
    intro ptr n
    cases hm : msg[ptr]? with
    | none =>
      have hle : msg.length ≤ ptr := by simpa using hm
      simp [read_loop, read_loop_reads, hm, hle]
    | some c =>
      have hlt : ptr < msg.length := (List.getElem?_eq_some.mp hm).1
      by_cases hc : c = 0
      · simp only [read_loop, read_loop_reads, hm, hc, if_true, List.mem_singleton,
          exists_eq_left]
        constructor
        · intro h; cases h
        · intro h; omega
      · have hrec := ih (ptr + 1) (n + 1)
        simp only [read_loop, read_loop_reads, hm, hc, if_false, List.mem_cons]
        constructor
        · intro h
          cases hl : read_loop put_user msg length (ptr + 1) (n + 1) with
          | none =>
            obtain ⟨i, hi, hle⟩ := hrec.mp hl
            exact ⟨i, Or.inr (Or.inr hi), hle⟩
          | some x => rw [hl] at h; cases h
        · rintro ⟨i, hi | hi | hi, hle⟩
          · omega
          · omega
          · rw [hrec.mpr ⟨i, hi, hle⟩]

/-- A read has no defined result exactly when the cursor is null or the call
evaluates `*msg_Ptr` at an offset outside `msg`. -/
theorem device_read_user_none_iff (put_user : Nat → Bool) (s : State) (length : Nat) :
    device_read_user put_user s length = none
      ↔ device_read_reads s length = none
        ∨ ∃ l, device_read_reads s length = some l ∧ ∃ i ∈ l, BUF_LEN ≤ i := by
  cases hp : s.msg_Ptr with
  | none =>
    rw [device_read_user_null put_user s length hp]
    simp [device_read_reads, hp]
  | some p =>
    cases hc : s.msg[p]? with
    | none =>
      have hle : s.msg.length ≤ p := by simpa using hc
      rw [s.msg_size] at hle
      rw [device_read_user_outside put_user s p length hp hc]
      simp [device_read_reads, hp, hc, hle]
    | some c =>
      have hlt : p < s.msg.length := (List.getElem?_eq_some.mp hc).1
      rw [s.msg_size] at hlt
      by_cases hz : c = 0
      · subst hz
        rw [device_read_user_at_terminator put_user s p length hp hc]
        simp only [device_read_reads, hp, hc, if_true, Option.some.injEq,
          exists_eq_left', List.mem_singleton, exists_eq_left]
        constructor
        · intro h; cases h
        · rintro (h | h)
          · cases h
          · omega
      · rw [device_read_user_loop put_user s p length c hp hc hz]
        have hl := read_loop_none_iff put_user s.msg length p 0
        rw [s.msg_size] at hl
        simp only [device_read_reads, hp, hc, hz, if_false, Option.map_eq_none', hl,
          Option.some.injEq, false_or, exists_eq_left', List.mem_cons]
        constructor
        · rintro ⟨i, hi, hle⟩
          exact Or.inr ⟨i, Or.inr hi, hle⟩
        · rintro (h | ⟨i, hi | hi, hle⟩)
          · cases h
          · omega
          · exact ⟨i, hi, hle⟩

/-! ## The claims on faults, invariants and registration -/

/-- C11, evaluated on the code: the value `device_read` returns and the state
it leaves never depend on whether `put_user` succeeds.  On the device holding
"hello", a 5-byte read into a caller buffer none of whose bytes can be
written returns 5, not `-EFAULT`, while no byte reaches the caller. -/
theorem device_read_put_user_fault (put_user : Nat → Bool) (s : State) (length : Nat) :
    Option.map (fun r => (r.ret, r.state)) (device_read_user put_user s length)
      = Option.map (fun r => (r.ret, r.state)) (device_read s length)
    ∧ device_read_user (fun _ => false) helloState 5
        = some { ret := 5, delivered := [], state := { helloState with msg_Ptr := some 5 } }
    ∧ (5 : Int) ≠ -EFAULT := by
  exact ⟨device_read_user_ret put_user s length, by decide, by decide⟩

/-- C12: in every state reached from the initial state by a sequence of
calls (any arguments, writes aborting with a copy fault included) the last
buffer byte, at index 79, is zero; so the buffer holds a zero byte below
index 80.  Every sequence that begins with `device_open` is defined, so
reaches such a state. -/
theorem terminator_invariant (ops : List Op) (rs : List Int) (s : State)
    (h : run initial ops = some (rs, s)) :
    s.msg[BUF_LEN - 1]? = some 0
    ∧ (∃ i, i < BUF_LEN ∧ s.msg[i]? = some 0)
    ∧ (0 : Byte) ∈ s.msg
    ∧ ∀ ops' : List Op, ∃ rs' s', run initial (Op.open :: ops') = some (rs', s')
        ∧ s'.msg[BUF_LEN - 1]? = some 0 := by
  have h0 : initial.msg[BUF_LEN - 1]? = some 0 := by decide
  have h79 := run_last_byte ops initial rs s h h0
  refine ⟨h79, ⟨BUF_LEN - 1, by decide, h79⟩, ?_, ?_⟩
  · obtain ⟨hlt, hv⟩ := List.getElem?_eq_some.mp h79
    rw [← hv]
    exact List.getElem_mem _
  · intro ops'
    obtain ⟨rs', s', hr, _, hi⟩ := run_inv ops' opened Inv.opened
    exact ⟨0 :: rs', s', by rw [run_cons initial Op.open ops' 0 opened rfl, hr]; rfl, hi.1⟩

/-- C12 on the sample session, which has a write that aborts with a fault. -/
theorem terminator_invariant_witness :
    ∃ rs s, run initial sampleTrace = some (rs, s) ∧ s.msg[BUF_LEN - 1]? = some 0 :=
  match h : run initial sampleTrace with
  | some (rs, s) => ⟨rs, s, rfl, (terminator_invariant sampleTrace rs s h).1⟩
  | none => absurd h (by decide)

/-- C13, as stated, fails: after open, a write of "hello", a 5-byte read and
a write whose byte 0 is zero and whose byte 1 cannot be read (it returns
`-EFAULT`), the cursor is at offset 5 while the first terminator of the
buffer is at offset 0. -/
theorem cursor_invariant_counterexample :
    Option.map (fun x => (x.1, x.2.msg_Ptr, remaining x.2.msg 0)) (run initial tornTrace)
      = some ([0, 5, 5, -EFAULT], some 5, 0)
    ∧ ¬ (5 ≤ 0) := by
  decide

/-- C13 (amended): every sequence of calls after a first `device_open` is
defined, and in the state it reaches the cursor is in `[0, 79]` with a
terminator at or after it; every `device_read` there leaves the cursor at or
after its previous value.  When no write of the sequence aborts with a copy
fault, the cursor is in `[0, length(Buffer)]`, the offset of the first
terminator of the buffer. -/
theorem cursor_invariant (ops : List Op) :
    ∃ rs s, run initial (Op.open :: ops) = some (rs, s)
      ∧ (∃ p, s.msg_Ptr = some p ∧ p ≤ BUF_LEN - 1 ∧ p + remaining s.msg p ≤ BUF_LEN - 1)
      ∧ (∀ put_user length, ∃ r p q, device_read_user put_user s length = some r
          ∧ s.msg_Ptr = some p ∧ r.state.msg_Ptr = some q ∧ p ≤ q)
      ∧ ((∀ op ∈ ops, op.faultFree = true) →
          ∃ p, s.msg_Ptr = some p ∧ p ≤ remaining s.msg 0
            ∧ remaining s.msg 0 ≤ BUF_LEN - 1) := by
  obtain ⟨rs, s, hr, _, hi⟩ := run_inv ops opened Inv.opened
  have hrun : run initial (Op.open :: ops) = some (0 :: rs, s) := by
    rw [run_cons initial Op.open ops 0 opened rfl, hr]; rfl
  refine ⟨0 :: rs, s, hrun, ?_, ?_, ?_⟩
  · obtain ⟨h79, p, hp, hle⟩ := hi
    exact ⟨p, hp, hle, Inv.terminator s p h79 hle⟩
  · intro put_user length
    obtain ⟨r, hd, _, _, _, _, _, p, q, h1, h2, h3⟩ := Inv.read put_user s length hi
    exact ⟨r, p, q, hd, h1, h2, h3⟩
  · intro hf
    obtain ⟨rs₂, s₂, hr₂, h79, p, hp, hle⟩ := cursorInv_run ops opened cursorInv_opened hf
    rw [hr] at hr₂
    simp only [Option.some.injEq, Prod.mk.injEq] at hr₂
    obtain ⟨_, e⟩ := hr₂
    subst e
    have := Inv.terminator s 0 h79 (Nat.zero_le _)
    exact ⟨p, hp, hle, by omega⟩

/-- C13 (amended) on: write "hello", read 3 bytes; the cursor ends at 3 and
the first terminator is at 5. -/
theorem cursor_invariant_witness :
    (∀ op ∈ [Op.write (userBytes hello) 5, Op.read (fun _ => true) 3], op.faultFree = true)
    ∧ ∃ rs s,
        run initial [Op.open, Op.write (userBytes hello) 5, Op.read (fun _ => true) 3]
          = some (rs, s)
        ∧ ∃ p, s.msg_Ptr = some p ∧ p ≤ remaining s.msg 0
            ∧ remaining s.msg 0 ≤ BUF_LEN - 1 :=
  have hf : ∀ op ∈ [Op.write (userBytes hello) 5, Op.read (fun _ => true) 3],
      op.faultFree = true := by
    intro op hop
    simp only [List.mem_cons, List.mem_singleton, List.not_mem_nil, or_false] at hop
    rcases hop with h | h <;> subst h <;> decide
  ⟨hf,
    (cursor_invariant [Op.write (userBytes hello) 5, Op.read (fun _ => true) 3]).imp
      fun _ h => h.imp fun _ h' => ⟨h'.1, h'.2.2.2 hf⟩⟩
/-- C14, as stated, fails: a `device_release` made on the initial state
leaves `Device_Open = -1`, which is neither 0 nor 1, so the guard is not
clear after that release. -/
theorem open_guard_counterexample :
    Option.map (fun x => x.2.Device_Open) (run initial [Op.release]) = some (-1)
    ∧ (-1 : Int) ≠ 0 ∧ (-1 : Int) ≠ 1 := by
  decide

/-- C14 (amended): in every state reached from the initial state by a
sequence of calls in which `device_release` is called only while a session
is open, `Device_Open` is 0 or 1; a `device_open` that succeeds there leaves
it 1, and a `device_release` made there while the session is open leaves it
0. -/
theorem open_guard_invariant (ops : List Op) (rs : List Int) (s : State)
    (h : run initial ops = some (rs, s)) (hd : sessionDiscipline initial ops = true) :
    (s.Device_Open = 0 ∨ s.Device_Open = 1)
    ∧ ((device_open s).1 = SUCCESS → (device_open s).2.Device_Open = 1)
    ∧ (s.Device_Open = 1 → (device_release s).2.Device_Open = 0) := by
  obtain ⟨hg, _⟩ := sessionInv_run ops initial rs s sessionInv_initial h hd
  refine ⟨hg, ?_, ?_⟩
  · intro hs
    by_cases h0 : s.Device_Open = 0
    · rw [device_open_of_clear s h0]
    · rw [device_open_of_set s h0] at hs
      exact absurd (show (-EBUSY : Int) = SUCCESS from hs) (by decide)
  · intro h1
    show wrap_int (s.Device_Open - 1) = 0
    rw [h1]
    decide

/-- C14 (amended) on the sample session. -/
theorem open_guard_invariant_witness :
    sessionDiscipline initial sampleTrace = true
    ∧ ∃ rs s, run initial sampleTrace = some (rs, s)
        ∧ (s.Device_Open = 0 ∨ s.Device_Open = 1) :=
  match h : run initial sampleTrace with
  | some (rs, s) =>
    ⟨by decide, rs, s, rfl, (open_guard_invariant sampleTrace rs s h (by decide)).1⟩
  | none => absurd h (by decide)

/-- C15: in every state `device_open` adds one to the reference count when
it succeeds and leaves it alone when it is rejected, and `device_release`
takes one off.  Along every sequence of calls from the initial state in which
`device_release` is called only while a session is open, the reference count
equals `Device_Open`, so it is 1 while a session is open and 0 otherwise. -/
theorem refcount_balance (ops : List Op) (rs : List Int) (s : State)
    (h : run initial ops = some (rs, s)) (hd : sessionDiscipline initial ops = true) :
    s.refcnt = s.Device_Open
    ∧ ((s.Device_Open = 1 ∧ s.refcnt = 1) ∨ (s.Device_Open = 0 ∧ s.refcnt = 0))
    ∧ (∀ t : State,
        ((device_open t).1 = SUCCESS → (device_open t).2.refcnt = t.refcnt + 1)
        ∧ ((device_open t).1 ≠ SUCCESS → (device_open t).2.refcnt = t.refcnt)
        ∧ (device_release t).2.refcnt = t.refcnt - 1) := by
  obtain ⟨hg, hc⟩ := sessionInv_run ops initial rs s sessionInv_initial h hd
  refine ⟨hc, ?_, ?_⟩
  · rcases hg with hg | hg
    · exact Or.inr ⟨hg, hc.trans hg⟩
    · exact Or.inl ⟨hg, hc.trans hg⟩
  · intro t
    refine ⟨?_, ?_, rfl⟩
    · intro hs
      by_cases h0 : t.Device_Open = 0
      · rw [device_open_of_clear t h0]
      · rw [device_open_of_set t h0] at hs
        exact absurd (show (-EBUSY : Int) = SUCCESS from hs) (by decide)
    · intro hs
      by_cases h0 : t.Device_Open = 0
      · rw [device_open_of_clear t h0] at hs
        exact absurd rfl hs
      · rw [device_open_of_set t h0]

/-- C15 on the sample session, which ends with a session open. -/
theorem refcount_balance_witness :
    sessionDiscipline initial sampleTrace = true
    ∧ ∃ rs s, run initial sampleTrace = some (rs, s)
        ∧ s.refcnt = s.Device_Open ∧ s.Device_Open = 1 :=
  match h : run initial sampleTrace with
  | some (rs, s) =>
    ⟨by decide, rs, s, rfl, (refcount_balance sampleTrace rs s h (by decide)).1,
      by
        have e : some (rs, s) = run initial sampleTrace := h.symm
        have hv : Option.map (fun x => x.2.Device_Open) (run initial sampleTrace) = some 1 := by
          decide
        rw [← e] at hv
        exact Option.some.inj hv⟩
  | none => absurd h (by decide)

/-- C16: for two states with the same buffer and the same cursor, whatever
their open guards, and equal arguments: `device_read` returns the same value,
delivers the same bytes and leaves the same buffer and cursor (or is defined
in neither), and so does `device_write`; each call leaves the open guard of
its state as it was. -/
theorem read_write_ignore_guard (s t : State) (hm : s.msg = t.msg)
    (hp : s.msg_Ptr = t.msg_Ptr) :
    (∀ put_user length,
        Option.map (fun r => (r.ret, r.delivered, r.state.msg, r.state.msg_Ptr))
            (device_read_user put_user s length)
          = Option.map (fun r => (r.ret, r.delivered, r.state.msg, r.state.msg_Ptr))
            (device_read_user put_user t length))
    ∧ (∀ put_user length r, device_read_user put_user s length = some r →
        r.state.Device_Open = s.Device_Open)
    ∧ (∀ put_user length r, device_read_user put_user t length = some r →
        r.state.Device_Open = t.Device_Open)
    ∧ (∀ buff len,
        (device_write s buff len).1 = (device_write t buff len).1
        ∧ (device_write s buff len).2.msg = (device_write t buff len).2.msg
        ∧ (device_write s buff len).2.msg_Ptr = (device_write t buff len).2.msg_Ptr
        ∧ (device_write s buff len).2.Device_Open = s.Device_Open
        ∧ (device_write t buff len).2.Device_Open = t.Device_Open) := by
  refine ⟨fun put_user length => device_read_user_congr put_user s t length hm hp,
    fun put_user length r h => (device_read_user_frame put_user s length r h).2.1,
    fun put_user length r h => (device_read_user_frame put_user t length r h).2.1,
    fun buff len => ?_⟩
  obtain ⟨h1, h2, h3⟩ := device_write_congr s t buff len hm hp
  exact ⟨h1, h2, h3, (device_write_frame s buff len).1, (device_write_frame t buff len).1⟩

/-- C16 at the device holding "hello", with the guard set and with the guard
clear: a 3-byte read returns 3 in both. -/
theorem read_write_ignore_guard_witness :
    helloState.Device_Open = 1
    ∧ ({ helloState with Device_Open := 0 } : State).Device_Open = 0
    ∧ Option.map (fun r => (r.ret, r.delivered, r.state.msg, r.state.msg_Ptr))
        (device_read_user (fun _ => true) helloState 3)
      = Option.map (fun r => (r.ret, r.delivered, r.state.msg, r.state.msg_Ptr))
        (device_read_user (fun _ => true) { helloState with Device_Open := 0 } 3)
    ∧ Option.map (fun r => r.ret) (device_read_user (fun _ => true) helloState 3) = some 3
    ∧ (device_write helloState (userBytes hello) 5).1
        = (device_write { helloState with Device_Open := 0 } (userBytes hello) 5).1 :=
  have h := read_write_ignore_guard helloState { helloState with Device_Open := 0 } rfl rfl
  ⟨by decide, rfl, h.1 (fun _ => true) 3, by decide, (h.2.2.2 (userBytes hello) 5).1⟩

/-- C17: every sequence of calls after a first `device_open` is defined, and
in the state it reaches: the cursor is in `[0, 79]`; every `device_read`,
whatever the requested length, is defined, evaluates `*msg_Ptr` at offsets
in `[0, 79]` only, and runs its loop at most 79 times (the count it returns
is the number of iterations); every `device_write`, whatever its length and
whether or not it aborts with a copy fault, writes `msg` at indices in
`[0, 79]` only. -/
theorem bounds_safety (ops : List Op) :
    ∃ rs s, run initial (Op.open :: ops) = some (rs, s)
      ∧ (∃ p, s.msg_Ptr = some p ∧ p ≤ BUF_LEN - 1)
      ∧ (∀ put_user length, ∃ r l, device_read_user put_user s length = some r
          ∧ 0 ≤ r.ret ∧ r.ret ≤ ((BUF_LEN - 1 : Nat) : Int) ∧ r.ret ≤ (length : Int)
          ∧ device_read_reads s length = some l ∧ ∀ i ∈ l, i ≤ BUF_LEN - 1)
      ∧ (∀ buff len, ∀ i ∈ device_write_writes s buff len, i ≤ BUF_LEN - 1) := by
  have hB : BUF_LEN = 80 := rfl
  obtain ⟨rs, s, hr, _, hi⟩ := run_inv ops opened Inv.opened
  have hrun : run initial (Op.open :: ops) = some (0 :: rs, s) := by
    rw [run_cons initial Op.open ops 0 opened rfl, hr]; rfl
  refine ⟨0 :: rs, s, hrun, hi.2, ?_, ?_⟩
  · intro put_user length
    obtain ⟨r, hd, h1, h2, h3⟩ := inv_read_ret put_user s length hi
    obtain ⟨l, hl, hb⟩ := device_read_reads_bound s length hi
    exact ⟨r, l, hd, h1, h2, h3, hl, fun i hi' => by have := hb i hi'; omega⟩
  · intro buff len i hi'
    have := device_write_writes_bound s buff len i hi'
    omega

/-- C17 on the sample session followed by a read of 1000 bytes and a write
of 1000 bytes. -/
theorem bounds_safety_witness :
    ∃ rs s, run initial (Op.open :: sampleTrace.tail) = some (rs, s)
      ∧ (∃ r l, device_read_user (fun _ => true) s 1000 = some r
          ∧ r.ret ≤ ((BUF_LEN - 1 : Nat) : Int)
          ∧ device_read_reads s 1000 = some l ∧ ∀ i ∈ l, i ≤ BUF_LEN - 1)
      ∧ ∀ i ∈ device_write_writes s (fun _ => UserByte.ok 65) 1000, i ≤ BUF_LEN - 1 :=
  (bounds_safety sampleTrace.tail).imp fun _ h => h.imp fun _ h' =>
    ⟨h'.1,
      (h'.2.2.1 (fun _ => true) 1000).imp fun _ hr => hr.imp fun _ hl =>
        ⟨hl.1, hl.2.2.1, hl.2.2.2.2⟩,
      h'.2.2.2 (fun _ => UserByte.ok 65) 1000⟩

/-- C18: with `r` the value `register_chrdev` returns, `init_module` stores
`r` in `Major`; it returns `r` itself when `r < 0`, and 0 when `r ≥ 0`.  It
changes nothing else. -/
theorem init_module_result (s : State) (r : Int) :
    (r < 0 → (init_module s r).1 = r)
    ∧ (0 ≤ r → (init_module s r).1 = SUCCESS ∧ (init_module s r).2.Major = r)
    ∧ (init_module s r).2 = { s with Major := r } := by
  refine ⟨fun h => ?_, fun h => ?_, ?_⟩
  · simp [init_module, h]
  · have h' : ¬ r < 0 := not_lt.mpr h
    simp [init_module, h']
  · by_cases h : r < 0 <;> simp [init_module, h]

/-- C18 at a failed registration (`-EBUSY`) and at the major number 240. -/
theorem init_module_result_witness :
    (-16 : Int) < 0 ∧ (init_module initial (-16)).1 = -16
    ∧ (0 : Int) ≤ 240 ∧ (init_module initial 240).1 = SUCCESS
    ∧ (init_module initial 240).2.Major = 240 :=
  ⟨by decide, (init_module_result initial (-16)).1 (by decide), by decide,
    (init_module_result initial 240).2.1 (by decide)⟩

end Chardev
